import Mathlib

/-!
# logd statistics: LogHashtable, UidEntry, PidEntry, LogStatistics

A shallow embedding of `logd/LogStatistics.h`.

* A table is given by its scan sequence: the entries in the order in which
  `BasicHashtable::next` / `entryAt` deliver them.  `BasicHashtable` itself is
  not part of the header, so the scan sequence is the parameter of `sort`.
* A `const TEntry *` into the table is an `EntryPtr`: the scan position of the
  entry (its identity) together with the entry that dereferencing yields.
  The null pointer is `none`.
* `size_t` fields are natural numbers below `2 ^ w`, `w` being the width of
  `size_t`; `+=`, `-=`, `++`, `--` are taken modulo `2 ^ w`.
* `ssize_t` indices are integers.  Slot counts `n` are natural numbers: an
  array of `n` pointers exists, so `n` fits `ssize_t` and `(ssize_t)n` is `n`.
-/

namespace LogHashtable

/-- A non-null `const TEntry *` pointing into the table: `pos` is the scan
position of the entry pointed to, `entry` is the entry itself. -/
structure EntryPtr (E : Type) where
  pos : Nat
  entry : E
deriving DecidableEq

/-- The pointers `&entryAt(index)` met by the scan loop, in scan order; the
first entry scanned has position `k`. -/
def scanPtrs {E : Type} : Nat → List E → List (EntryPtr E)
  | _, [] => []
  | k, e :: rest => ⟨k, e⟩ :: scanPtrs (k + 1) rest

/-- Read of `retval[i]`. -/
def slotAt {E : Type} (retval : List (Option (EntryPtr E))) (i : Nat) : Option (EntryPtr E) :=
  retval.getD i none

/-- The test `!retval[i] || (s > retval[i]->getSizes())` of the inner loop,
on the value read from slot `i`. -/
def slotYields {E : Type} (getSizes : E → Nat) (s : Nat) : Option (EntryPtr E) → Bool
  | none => true
  | some p => decide (s > getSizes p.entry)

/-- The inner loop
`while ((!retval[i] || (s > retval[i]->getSizes())) && (--i >= 0));`
started at `i`; the result is the value of `i` when the loop is left
(`-1` when `--i` went below zero). -/
def searchLoop {E : Type} (getSizes : E → Nat) (retval : List (Option (EntryPtr E))) (s : Nat) :
    Nat → Int
  | 0 => if slotYields getSizes s (slotAt retval 0) then -1 else 0
  | i + 1 =>
    if slotYields getSizes s (slotAt retval (i + 1)) then searchLoop getSizes retval s i
    else ((i + 1 : Nat) : Int)

/-- The `memmove(&retval[i+1], &retval[i], b * sizeof(retval[0]))` with
`b = n - i - 1` (skipped when `b` is zero), followed by `retval[i] = &entry`. -/
def shiftStore {E : Type} (n : Nat) (retval : List (Option (EntryPtr E))) (i : Nat)
    (p : EntryPtr E) : List (Option (EntryPtr E)) :=
  retval.take i ++ some p :: (retval.drop i).take (n - i - 1)

/-- One pass of the body of the scan loop of `sort` for the entry behind `p`. -/
def sortStep {E : Type} (getSizes : E → Nat) (n : Nat) (retval : List (Option (EntryPtr E)))
    (p : EntryPtr E) : List (Option (EntryPtr E)) :=
  let s := getSizes p.entry
  let i : Int := searchLoop getSizes retval s (n - 1) + 1
  if i < (n : Int) then shiftStore n retval i.toNat p else retval

/-- The scan loop of `sort` over the pointers still to be visited. -/
def sortLoop {E : Type} (getSizes : E → Nat) (n : Nat) :
    List (EntryPtr E) → List (Option (EntryPtr E)) → List (Option (EntryPtr E))
  | [], retval => retval
  | p :: rest, retval => sortLoop getSizes n rest (sortStep getSizes n retval p)

/-- `LogHashtable::sort(n)` on the table with scan sequence `table`: the null
`unique_ptr` (`none`) when `n` is zero, otherwise the array `retval` of `n`
slots, zeroed by `memset` and filled by the scan loop. -/
def sort {E : Type} (getSizes : E → Nat) (table : List E) (n : Nat) :
    Option (List (Option (EntryPtr E))) :=
  if n = 0 then none
  else some (sortLoop getSizes n (scanPtrs 0 table) (List.replicate n none))

/-- `LogHashtable::next(index, sorted, n)`, the iteration handler for the
output of `sort`.  The result is `none` where the C++ code has no defined
result: a read of `sorted[index]` past the end of the array, or the
dereference `sorted[0]->getSizes()` of a null slot 0. -/
def next {E : Type} (getSizes : E → Nat) (index : Int)
    (sorted : Option (List (Option (EntryPtr E)))) (n : Nat) : Option Int :=
  let index := index + 1
  match sorted with
  | none => some (-1)
  | some arr =>
    if index < 0 then some (-1)
    else if (n : Int) ≤ index then some (-1)
    else
      match arr.get? index.toNat with
      | none => none
      | some none => some (-1)
      | some (some p) =>
        match arr.head? with
        | some (some p0) =>
          if getSizes p.entry ≤ getSizes p0.entry / 100 then some (-1) else some index
        | _ => none

/-- Rank of a slot value: 0 for the null pointer, size + 1 for a pointer. -/
def slotRank {E : Type} (getSizes : E → Nat) : Option (EntryPtr E) → Nat
  | none => 0
  | some p => getSizes p.entry + 1

/-- Left-to-right description of one pass of the scan loop body: the pointer
goes in front of the first slot that is null or holds a smaller size, and the
last slot falls off. -/
def insertSlots {E : Type} (getSizes : E → Nat) (p : EntryPtr E) :
    List (Option (EntryPtr E)) → List (Option (EntryPtr E))
  | [] => []
  | a :: rest =>
    if slotYields getSizes (getSizes p.entry) a then some p :: (a :: rest).dropLast
    else a :: insertSlots getSizes p rest

/-- Store in front of a block of slots, the last slot of the block falling
off; nothing happens to an empty block. -/
def frontStore {E : Type} (p : EntryPtr E) :
    List (Option (EntryPtr E)) → List (Option (EntryPtr E))
  | [] => []
  | b :: rest => some p :: (b :: rest).dropLast

/-- Slots are ranked: null slots come last and sizes do not increase. -/
def RankedSlots {E : Type} (getSizes : E → Nat) (retval : List (Option (EntryPtr E))) : Prop :=
  retval.Pairwise (fun a b => slotRank getSizes b ≤ slotRank getSizes a)

/-- Insertion of a pointer into a list of pointers kept by non-increasing
size: behind every pointer whose size is at least its own. -/
def insertRanked {E : Type} (getSizes : E → Nat) (p : EntryPtr E) :
    List (EntryPtr E) → List (EntryPtr E)
  | [] => [p]
  | q :: rest =>
    if getSizes p.entry > getSizes q.entry then p :: q :: rest
    else q :: insertRanked getSizes p rest

/-- All pointers of `ptrs` inserted one after the other into `acc`. -/
def rankAll {E : Type} (getSizes : E → Nat) :
    List (EntryPtr E) → List (EntryPtr E) → List (EntryPtr E)
  | [], acc => acc
  | p :: rest, acc => rankAll getSizes rest (insertRanked getSizes p acc)

/-- The first `n` pointers of a list as an array of `n` slots, null slots
filling up the end. -/
def padSlots {E : Type} : Nat → List (EntryPtr E) → List (Option (EntryPtr E))
  | 0, _ => []
  | n + 1, [] => none :: padSlots n []
  | n + 1, q :: rest => some q :: padSlots n rest

/-- Pointers listed by non-increasing size. -/
def RankedPtrs {E : Type} (getSizes : E → Nat) (l : List (EntryPtr E)) : Prop :=
  l.Pairwise (fun a b => getSizes b.entry ≤ getSizes a.entry)

end LogHashtable

/-- The sum of two `size_t` values, as `+=` and `++` leave it in a field of
width `w`. -/
def wrapAdd (w a b : Nat) : Nat := (a + b) % 2 ^ w

/-- The difference of two `size_t` values, as `-=` and `--` leave it in a
field of width `w`. -/
def wrapSub (w a b : Nat) : Nat := (a + (2 ^ w - b % 2 ^ w)) % 2 ^ w

/-- The struct `UidEntry`: key `uid`, accumulated `size` and `dropped`. -/
structure UidEntry where
  uid : Nat
  size : Nat
  dropped : Nat
deriving DecidableEq

namespace UidEntry

/-- The constructor `UidEntry(uid)`. -/
def init (uid : Nat) : UidEntry := ⟨uid, 0, 0⟩

/-- `getKey()`. -/
def getKey (e : UidEntry) : Nat := e.uid

/-- `getSizes()`. -/
def getSizes (e : UidEntry) : Nat := e.size

/-- `getDropped()`. -/
def getDropped (e : UidEntry) : Nat := e.dropped

/-- `add(s)`: `size += s`. -/
def add (w : Nat) (e : UidEntry) (s : Nat) : UidEntry :=
  { e with size := wrapAdd w e.size s }

/-- `add_dropped(d)`: `dropped += d`. -/
def add_dropped (w : Nat) (e : UidEntry) (d : Nat) : UidEntry :=
  { e with dropped := wrapAdd w e.dropped d }

/-- `subtract(s)`: `size -= s; return !dropped && !size;` as the pair of the
returned flag and the entry after the call. -/
def subtract (w : Nat) (e : UidEntry) (s : Nat) : Bool × UidEntry :=
  let e1 : UidEntry := { e with size := wrapSub w e.size s }
  (e1.dropped == 0 && e1.size == 0, e1)

/-- `subtract_dropped(d)`: `dropped -= d; return !dropped && !size;` as the
pair of the returned flag and the entry after the call. -/
def subtract_dropped (w : Nat) (e : UidEntry) (d : Nat) : Bool × UidEntry :=
  let e1 : UidEntry := { e with dropped := wrapSub w e.dropped d }
  (e1.dropped == 0 && e1.size == 0, e1)

end UidEntry

/-- The struct `PidEntry`: key `pid`, cached `uid`, cached `name` (a null
`char *` is `none`), accumulated `size` and `dropped`. -/
structure PidEntry where
  pid : Int
  uid : Nat
  name : Option String
  size : Nat
  dropped : Nat
deriving DecidableEq

namespace PidEntry

/-- The constructor `PidEntry(p, u, n)`. -/
def init (p : Int) (u : Nat) (n : Option String) : PidEntry := ⟨p, u, n, 0, 0⟩

/-- `getKey()`. -/
def getKey (e : PidEntry) : Int := e.pid

/-- `getUid()`. -/
def getUid (e : PidEntry) : Nat := e.uid

/-- `setUid(u)`. -/
def setUid (e : PidEntry) (u : Nat) : PidEntry := { e with uid := u }

/-- `getName()`. -/
def getName (e : PidEntry) : Option String := e.name

/-- `setName(n)`: the old name is released and `n` stored. -/
def setName (e : PidEntry) (n : Option String) : PidEntry := { e with name := n }

/-- `getSizes()`. -/
def getSizes (e : PidEntry) : Nat := e.size

/-- `getDropped()`. -/
def getDropped (e : PidEntry) : Nat := e.dropped

/-- `add(s)`: `size += s`. -/
def add (w : Nat) (e : PidEntry) (s : Nat) : PidEntry :=
  { e with size := wrapAdd w e.size s }

/-- `add_dropped(d)`: `dropped += d`. -/
def add_dropped (w : Nat) (e : PidEntry) (d : Nat) : PidEntry :=
  { e with dropped := wrapAdd w e.dropped d }

/-- `subtract(s)`: `size -= s; return !dropped && !size;` as the pair of the
returned flag and the entry after the call. -/
def subtract (w : Nat) (e : PidEntry) (s : Nat) : Bool × PidEntry :=
  let e1 : PidEntry := { e with size := wrapSub w e.size s }
  (e1.dropped == 0 && e1.size == 0, e1)

/-- `subtract_dropped(d)`: `dropped -= d; return !dropped && !size;` as the
pair of the returned flag and the entry after the call. -/
def subtract_dropped (w : Nat) (e : PidEntry) (d : Nat) : Bool × PidEntry :=
  let e1 : PidEntry := { e with dropped := wrapSub w e.dropped d }
  (e1.dropped == 0 && e1.size == 0, e1)

end PidEntry

/-- Modelled from the spec: the log record of `LogBufferElement.h`, which is
not part of the header.  A record carries its category, user identity,
process identity, payload size in bytes and a dropped flag. -/
structure LogBufferElement where
  logId : Nat
  uid : Nat
  pid : Int
  msgLen : Nat
  dropped : Bool
deriving DecidableEq

/-- `getLogId()` of a record. -/
def LogBufferElement.getLogId (e : LogBufferElement) : Nat := e.logId

/-- The class `LogStatistics`.  The arrays indexed by `log_id_t` are
functions of the category; `uidTable` and `pidTable` are given by their scan
sequences. -/
structure LogStatistics where
  mSizes : Nat → Nat
  mElements : Nat → Nat
  mSizesTotal : Nat → Nat
  mElementsTotal : Nat → Nat
  enable : Bool
  uidTable : Nat → List UidEntry
  pidTable : List PidEntry

namespace LogStatistics

/-- `enableStatistics()`. -/
def enableStatistics (st : LogStatistics) : LogStatistics := { st with enable := true }

/-- `erase(e)`: `--mElements[e->getLogId()]`. -/
def erase (w : Nat) (st : LogStatistics) (e : LogBufferElement) : LogStatistics :=
  { st with mElements :=
      Function.update st.mElements e.getLogId (wrapSub w (st.mElements e.getLogId) 1) }

/-- `sort(n, i)`: `uidTable[i].sort(n)`. -/
def sort (st : LogStatistics) (n : Nat) (i : Nat) :
    Option (List (Option (LogHashtable.EntryPtr UidEntry))) :=
  LogHashtable.sort UidEntry.getSizes (st.uidTable i) n

/-- `sizes(id)`. -/
def sizes (st : LogStatistics) (id : Nat) : Nat := st.mSizes id

/-- `elements(id)`. -/
def elements (st : LogStatistics) (id : Nat) : Nat := st.mElements id

/-- `sizesTotal(id)`. -/
def sizesTotal (st : LogStatistics) (id : Nat) : Nat := st.mSizesTotal id

/-- `elementsTotal(id)`. -/
def elementsTotal (st : LogStatistics) (id : Nat) : Nat := st.mElementsTotal id

/-- Modelled from the spec: find-or-create of the user entry for `uid` and
accumulation of `s` on it (the body of `add` is not part of the header).  A
created entry is put at the end of the scan sequence. -/
def uidAccumulate (w : Nat) (uid s : Nat) : List UidEntry → List UidEntry
  | [] => [(UidEntry.init uid).add w s]
  | e :: rest =>
    if e.getKey = uid then e.add w s :: rest else e :: uidAccumulate w uid s rest

/-- Modelled from the spec: find-or-create of the process entry for `pid`
and accumulation of `s` on it; a cached user identity that differs from the
one of the record is overwritten, and an entry without cached name gets the
name resolved by the identity service `getname`. -/
def pidAccumulate (w : Nat) (getname : Int → Option String) (pid : Int) (uid s : Nat) :
    List PidEntry → List PidEntry
  | [] => [(PidEntry.init pid uid (getname pid)).add w s]
  | e :: rest =>
    if e.getKey = pid then
      let e1 := if e.getUid = uid then e else e.setUid uid
      let e2 := if e1.getName = none then e1.setName (getname pid) else e1
      e2.add w s :: rest
    else e :: pidAccumulate w getname pid uid s rest

/-- Modelled from the spec: reduction of the user entry for `uid` by `s`,
the entry being removed from the table when it reports now-empty. -/
def uidReduce (w : Nat) (uid s : Nat) : List UidEntry → List UidEntry
  | [] => []
  | e :: rest =>
    if e.getKey = uid then
      (if (e.subtract w s).1 then rest else (e.subtract w s).2 :: rest)
    else e :: uidReduce w uid s rest

/-- Modelled from the spec: reduction of the process entry for `pid` by
`s`, the entry being removed from the table when it reports now-empty. -/
def pidReduce (w : Nat) (pid : Int) (s : Nat) : List PidEntry → List PidEntry
  | [] => []
  | e :: rest =>
    if e.getKey = pid then
      (if (e.subtract w s).1 then rest else (e.subtract w s).2 :: rest)
    else e :: pidReduce w pid s rest

/-- Modelled from the spec: `LogStatistics::add`, whose body is not part of
the header.  With collection disabled nothing happens; otherwise the current
size and count and the lifetime size and count of the category go up by the
size of the record and by one, and the user entry of the category and the
process entry accumulate the size.  The current counters are the `size_t`
fields that `erase` and `subtract` take down again; the lifetime counters are
sums that only grow, as the spec words them (monotonically non-decreasing, no
width stated). -/
def add (w : Nat) (getname : Int → Option String) (st : LogStatistics)
    (e : LogBufferElement) : LogStatistics :=
  if st.enable then
    { st with
      mSizes := Function.update st.mSizes e.getLogId (wrapAdd w (st.mSizes e.getLogId) e.msgLen)
      mElements := Function.update st.mElements e.getLogId (wrapAdd w (st.mElements e.getLogId) 1)
      mSizesTotal :=
        Function.update st.mSizesTotal e.getLogId (st.mSizesTotal e.getLogId + e.msgLen)
      mElementsTotal :=
        Function.update st.mElementsTotal e.getLogId (st.mElementsTotal e.getLogId + 1)
      uidTable :=
        Function.update st.uidTable e.getLogId
          (uidAccumulate w e.uid e.msgLen (st.uidTable e.getLogId))
      pidTable := pidAccumulate w getname e.pid e.uid e.msgLen st.pidTable }
  else st

/-- Modelled from the spec: `LogStatistics::subtract`, whose body is not part
of the header.  It mirrors `add`: the current size and count of the category
go down by the size of the record and by one, the lifetime counters are not
touched, and the user and process entries are reduced by the size and removed
when they report now-empty. -/
def subtract (w : Nat) (st : LogStatistics) (e : LogBufferElement) : LogStatistics :=
  if st.enable then
    { st with
      mSizes := Function.update st.mSizes e.getLogId (wrapSub w (st.mSizes e.getLogId) e.msgLen)
      mElements := Function.update st.mElements e.getLogId (wrapSub w (st.mElements e.getLogId) 1)
      uidTable :=
        Function.update st.uidTable e.getLogId
          (uidReduce w e.uid e.msgLen (st.uidTable e.getLogId))
      pidTable := pidReduce w e.pid e.msgLen st.pidTable }
  else st

end LogStatistics

/-- A user table with three entries, in scan order. -/
def sampleUidTable : List UidEntry := [⟨1000, 120, 0⟩, ⟨1001, 80, 0⟩, ⟨1002, 300, 0⟩]

/-- A user table with two entries of the same size, in scan order. -/
def tiedUidTable : List UidEntry := [⟨1000, 5, 0⟩, ⟨1001, 5, 0⟩]

/-- The input that `LogHashtable::next(index, sorted, n)` is written for: the
array is absent, or it has `n` slots and slot 0 is set whenever any slot is. -/
def LogHashtable.CursorInput {E : Type} (sorted : Option (List (Option (LogHashtable.EntryPtr E))))
    (n : Nat) : Prop :=
  match sorted with
  | none => True
  | some arr => arr.length = n ∧ (arr.head? = some none → ∀ a ∈ arr, a = none)

/-- An orchestrator state with collection enabled holding one record of 120
bytes in category 0. -/
def sampleStats : LogStatistics :=
  { mSizes := fun id => if id = 0 then 120 else 0
    mElements := fun id => if id = 0 then 1 else 0
    mSizesTotal := fun id => if id = 0 then 120 else 0
    mElementsTotal := fun id => if id = 0 then 1 else 0
    enable := true
    uidTable := fun id => if id = 0 then [⟨1000, 120, 0⟩] else []
    pidTable := [⟨50, 1000, none, 120, 0⟩] }

/-- A record of category 0, user 1000, process 51 and 80 bytes of payload. -/
def sampleRecord : LogBufferElement := ⟨0, 1000, 51, 80, false⟩

/-- The value of `i` in the scan loop body of `sort` after `++i`: the slot
at which the entry of size `s` is stored when it is below `n`. -/
def LogHashtable.storeIndex {E : Type} (getSizes : E → Nat) (n : Nat)
    (retval : List (Option (LogHashtable.EntryPtr E))) (s : Nat) : Int :=
  LogHashtable.searchLoop getSizes retval s (n - 1) + 1

/-- The inner loop of `sort` started at `i`, with the indices at which it
reads `retval[i]` listed in the order of the reads next to the value of `i`
when the loop is left. -/
def LogHashtable.searchReads {E : Type} (getSizes : E → Nat)
    (retval : List (Option (LogHashtable.EntryPtr E))) (s : Nat) : Nat → List Int × Int
  | 0 =>
    ([0], if LogHashtable.slotYields getSizes s (LogHashtable.slotAt retval 0) then -1 else 0)
  | i + 1 =>
    if LogHashtable.slotYields getSizes s (LogHashtable.slotAt retval (i + 1)) then
      (((i + 1 : Nat) : Int) :: (LogHashtable.searchReads getSizes retval s i).1,
        (LogHashtable.searchReads getSizes retval s i).2)
    else ([((i + 1 : Nat) : Int)], ((i + 1 : Nat) : Int))

/-- A user table with sizes 5, 3 and 4, in scan order. -/
def midUidTable : List UidEntry := [⟨1000, 5, 0⟩, ⟨1001, 3, 0⟩, ⟨1002, 4, 0⟩]

/-- Order of a stable ranking: `a` stands before `b` when `a` is larger, or
as large and met earlier in the scan. -/
def LogHashtable.ScanRanked {E : Type} (getSizes : E → Nat) (a b : LogHashtable.EntryPtr E) :
    Prop :=
  getSizes b.entry < getSizes a.entry ∨ (getSizes b.entry = getSizes a.entry ∧ a.pos < b.pos)

/-- The stable sort of a sequence of pointers by size in non-increasing
order, as the specification of `sort` words it: insertion sort, in which a
pointer goes in front of the first pointer that is not larger, so that of
pointers of equal size the one met earlier stays in front. -/
def LogHashtable.stableSortBySize {E : Type} (getSizes : E → Nat)
    (ptrs : List (LogHashtable.EntryPtr E)) : List (LogHashtable.EntryPtr E) :=
  ptrs.insertionSort (fun a b => getSizes b.entry ≤ getSizes a.entry)

/-- Iteration of the cursor over a ranked array: `next` is called on the
index it returned last, starting from `index`, until it returns -1; the
indices returned before that are collected in order.  The result is `none`
when the fuel runs out or a call of `next` has no defined result. -/
def LogHashtable.cursorWalk {E : Type} (getSizes : E → Nat)
    (sorted : Option (List (Option (LogHashtable.EntryPtr E)))) (n : Nat) :
    Nat → Int → Option (List Int)
  | 0, _ => none
  | fuel + 1, index =>
    match LogHashtable.next getSizes index sorted n with
    | none => none
    | some k =>
      if k = -1 then some []
      else (LogHashtable.cursorWalk getSizes sorted n fuel k).map (fun rest => k :: rest)

/-- Slot `j` of a ranked array is set and holds more than 1% of the size held
in slot 0. -/
def LogHashtable.exposedAt {E : Type} (getSizes : E → Nat)
    (arr : List (Option (LogHashtable.EntryPtr E))) (j : Nat) : Bool :=
  match arr.get? j, arr.head? with
  | some (some p), some (some p0) => decide (getSizes p0.entry < 100 * getSizes p.entry)
  | _, _ => false

/-- A user table whose entries hold a dropped count and no size. -/
def droppedOnlyUidTable : List UidEntry := [⟨1000, 0, 3⟩, ⟨1001, 0, 1⟩]

/-- The first two entries of `midUidTable`, in scan order. -/
def midScanned : List UidEntry := [⟨1000, 5, 0⟩, ⟨1001, 3, 0⟩]

/-- The third entry of `midUidTable`. -/
def midLast : UidEntry := ⟨1002, 4, 0⟩

/-- The array of three slots after the scan of `midScanned`. -/
def midSlots : List (Option (LogHashtable.EntryPtr UidEntry)) :=
  [some ⟨0, ⟨1000, 5, 0⟩⟩, some ⟨1, ⟨1001, 3, 0⟩⟩, none]

/-! ## Lemmas on the scan loop of sort -/

namespace LogHashtable

theorem slotYields_iff {E : Type} (getSizes : E → Nat) (s : Nat) (a : Option (EntryPtr E)) :
    slotYields getSizes s a = true ↔ slotRank getSizes a ≤ s := by
  cases a with
  | none => simp [slotYields, slotRank]
  | some p => simp [slotYields, slotRank]; omega

theorem slotAt_append_left {E : Type} (A B : List (Option (EntryPtr E))) (i : Nat)
    (h : i < A.length) : slotAt (A ++ B) i ∈ A := by
  unfold slotAt
  rw [List.getD_eq_getElem?_getD, List.getElem?_append_left h, List.getElem?_eq_getElem h]
  simp

theorem slotAt_append_right {E : Type} (A B : List (Option (EntryPtr E))) (i : Nat)
    (h : A.length ≤ i) : slotAt (A ++ B) i = none ∨ slotAt (A ++ B) i ∈ B := by
  unfold slotAt
  rw [List.getD_eq_getElem?_getD, List.getElem?_append_right h]
  by_cases hb : i - A.length < B.length
  · right
    rw [List.getElem?_eq_getElem hb]
    simp
  · left
    rw [List.getElem?_eq_none (by omega)]
    rfl

theorem searchLoop_append {E : Type} (getSizes : E → Nat) (s : Nat)
    (A B : List (Option (EntryPtr E)))
    (hA : ∀ a ∈ A, slotYields getSizes s a = false)
    (hB : ∀ b ∈ B, slotYields getSizes s b = true) :
    ∀ i : Nat, A.length ≤ i + 1 →
      searchLoop getSizes (A ++ B) s i = (A.length : Int) - 1 := by
  intro i
  induction i with
  | zero =>
    intro h
    unfold searchLoop
    by_cases h0 : A.length = 0
    · have hy : slotYields getSizes s (slotAt (A ++ B) 0) = true := by
        rcases slotAt_append_right A B 0 (by omega) with h1 | h1
        · rw [h1]; rfl
        · exact hB _ h1
      simp [hy, h0]
    · have hy : slotYields getSizes s (slotAt (A ++ B) 0) = false :=
        hA _ (slotAt_append_left A B 0 (by omega))
      simp [hy]
      omega
  | succ i ih =>
    intro h
    unfold searchLoop
    by_cases h0 : A.length ≤ i + 1
    · have hy : slotYields getSizes s (slotAt (A ++ B) (i + 1)) = true := by
        rcases slotAt_append_right A B (i + 1) h0 with h1 | h1
        · rw [h1]; rfl
        · exact hB _ h1
      simp [hy]
      exact ih h0
    · have hy : slotYields getSizes s (slotAt (A ++ B) (i + 1)) = false :=
        hA _ (slotAt_append_left A B (i + 1) (by omega))
      simp [hy]
      omega

theorem sortStep_append {E : Type} (getSizes : E → Nat) (n : Nat) (p : EntryPtr E)
    (A B : List (Option (EntryPtr E)))
    (hA : ∀ a ∈ A, slotYields getSizes (getSizes p.entry) a = false)
    (hB : ∀ b ∈ B, slotYields getSizes (getSizes p.entry) b = true)
    (hn : (A ++ B).length = n) (hpos : 1 ≤ n) :
    sortStep getSizes n (A ++ B) p = A ++ frontStore p B := by
  have hs := searchLoop_append getSizes (getSizes p.entry) A B hA hB (n - 1)
    (by simp at hn; omega)
  simp only [sortStep, hs]
  simp only [List.length_append] at hn
  by_cases hb : B = []
  · subst hb
    simp at hn
    simp [hn, frontStore]
  · have hlen : 0 < B.length := List.length_pos.mpr hb
    have h1 : ((A.length : Int) - 1 + 1) < (n : Int) := by omega
    have h2 : ((A.length : Int) - 1 + 1).toNat = A.length := by omega
    rw [if_pos h1, h2]
    unfold shiftStore
    have h3 : n - A.length - 1 = B.length - 1 := by omega
    rw [List.take_left, List.drop_left, h3, ← List.dropLast_eq_take]
    cases B with
    | nil => exact absurd rfl hb
    | cons b rest => rfl

theorem insertSlots_append {E : Type} (getSizes : E → Nat) (p : EntryPtr E)
    (A B : List (Option (EntryPtr E)))
    (hA : ∀ a ∈ A, slotYields getSizes (getSizes p.entry) a = false)
    (hB : ∀ b ∈ B, slotYields getSizes (getSizes p.entry) b = true) :
    insertSlots getSizes p (A ++ B) = A ++ frontStore p B := by
  induction A with
  | nil =>
    cases B with
    | nil => simp [insertSlots, frontStore]
    | cons b rest =>
      have hb := hB b (by simp)
      simp [insertSlots, hb, frontStore]
  | cons a A ih =>
    have ha := hA a (by simp)
    have ih2 := ih (fun x hx => hA x (by simp [hx]))
    simp only [List.cons_append, insertSlots, ha]
    simp [ih2]

theorem rankedSlots_split {E : Type} (getSizes : E → Nat) (s : Nat)
    (retval : List (Option (EntryPtr E))) (h : RankedSlots getSizes retval) :
    ∃ A B, retval = A ++ B ∧ (∀ a ∈ A, slotYields getSizes s a = false) ∧
      (∀ b ∈ B, slotYields getSizes s b = true) := by
  induction retval with
  | nil => exact ⟨[], [], rfl, by simp, by simp⟩
  | cons a rest ih =>
    unfold RankedSlots at h
    rw [List.pairwise_cons] at h
    by_cases hy : slotYields getSizes s a = true
    · refine ⟨[], a :: rest, rfl, by simp, ?_⟩
      intro b hb
      rcases List.mem_cons.mp hb with rfl | hb
      · exact hy
      · have h1 := h.1 b hb
        rw [slotYields_iff] at hy ⊢
        omega
    · obtain ⟨A, B, hAB, hA, hB⟩ := ih h.2
      refine ⟨a :: A, B, by simp [hAB], ?_, hB⟩
      intro x hx
      rcases List.mem_cons.mp hx with rfl | hx
      · simpa using hy
      · exact hA x hx

theorem sortStep_eq_insertSlots {E : Type} (getSizes : E → Nat) (n : Nat) (p : EntryPtr E)
    (retval : List (Option (EntryPtr E))) (h : RankedSlots getSizes retval)
    (hn : retval.length = n) (hpos : 1 ≤ n) :
    sortStep getSizes n retval p = insertSlots getSizes p retval := by
  obtain ⟨A, B, hAB, hA, hB⟩ := rankedSlots_split getSizes (getSizes p.entry) retval h
  subst hAB
  rw [sortStep_append getSizes n p A B hA hB hn hpos, insertSlots_append getSizes p A B hA hB]

theorem length_padSlots {E : Type} (n : Nat) (l : List (EntryPtr E)) :
    (padSlots n l).length = n := by
  induction n generalizing l with
  | zero => simp [padSlots]
  | succ n ih => cases l <;> simp [padSlots, ih]

theorem padSlots_nil {E : Type} (n : Nat) :
    padSlots n ([] : List (EntryPtr E)) = List.replicate n none := by
  induction n with
  | zero => rfl
  | succ n ih => simp [padSlots, ih, List.replicate_succ]

theorem dropLast_padSlots {E : Type} (n : Nat) (l : List (EntryPtr E)) :
    (padSlots (n + 1) l).dropLast = padSlots n l := by
  induction n generalizing l with
  | zero => cases l <;> simp [padSlots]
  | succ n ih =>
    have hne : ∀ l2 : List (EntryPtr E), padSlots (n + 1) l2 ≠ [] := by
      intro l2 h0
      have := length_padSlots (n + 1) l2
      rw [h0] at this
      simp at this
    cases l with
    | nil =>
      show (none :: padSlots (n + 1) []).dropLast = none :: padSlots n []
      rw [List.dropLast_cons_of_ne_nil (hne _), ih]
    | cons q rest =>
      show (some q :: padSlots (n + 1) rest).dropLast = some q :: padSlots n rest
      rw [List.dropLast_cons_of_ne_nil (hne _), ih]

theorem insertSlots_padSlots {E : Type} (getSizes : E → Nat) (p : EntryPtr E) (n : Nat)
    (l : List (EntryPtr E)) :
    insertSlots getSizes p (padSlots n l) = padSlots n (insertRanked getSizes p l) := by
  induction l generalizing n with
  | nil =>
    cases n with
    | zero => rfl
    | succ n =>
      show insertSlots getSizes p (none :: padSlots n []) = some p :: padSlots n []
      have h := dropLast_padSlots n ([] : List (EntryPtr E))
      simp only [padSlots] at h
      simp [insertSlots, slotYields, h]
  | cons q rest ih =>
    cases n with
    | zero => simp [padSlots, insertSlots]
    | succ n =>
      have h := dropLast_padSlots n (q :: rest)
      simp only [padSlots] at h
      by_cases hq : getSizes p.entry > getSizes q.entry
      · simp [insertRanked, hq, padSlots, insertSlots, slotYields, h]
      · simp [insertRanked, hq, padSlots, insertSlots, slotYields, ih]

theorem mem_padSlots {E : Type} (n : Nat) (l : List (EntryPtr E)) (b : Option (EntryPtr E))
    (h : b ∈ padSlots n l) : b = none ∨ ∃ q ∈ l, b = some q := by
  induction n generalizing l with
  | zero => simp [padSlots] at h
  | succ n ih =>
    cases l with
    | nil =>
      simp only [padSlots, List.mem_cons] at h
      rcases h with h | h
      · exact Or.inl h
      · rcases ih [] h with h1 | ⟨q, hq, _⟩
        · exact Or.inl h1
        · simp at hq
    | cons q rest =>
      simp only [padSlots, List.mem_cons] at h
      rcases h with h | h
      · exact Or.inr ⟨q, by simp, h⟩
      · rcases ih rest h with h1 | ⟨q2, hq2, h2⟩
        · exact Or.inl h1
        · exact Or.inr ⟨q2, by simp [hq2], h2⟩

theorem rankedSlots_padSlots {E : Type} (getSizes : E → Nat) (n : Nat) (l : List (EntryPtr E))
    (h : RankedPtrs getSizes l) : RankedSlots getSizes (padSlots n l) := by
  induction n generalizing l with
  | zero => simp [padSlots, RankedSlots]
  | succ n ih =>
    cases l with
    | nil =>
      unfold RankedSlots
      simp only [padSlots]
      rw [List.pairwise_cons]
      refine ⟨?_, ih [] h⟩
      intro b hb
      rcases mem_padSlots n [] b hb with h1 | ⟨q, hq, _⟩
      · simp [h1, slotRank]
      · simp at hq
    | cons q rest =>
      unfold RankedPtrs at h
      rw [List.pairwise_cons] at h
      unfold RankedSlots
      simp only [padSlots]
      rw [List.pairwise_cons]
      refine ⟨?_, ih rest h.2⟩
      intro b hb
      rcases mem_padSlots n rest b hb with h1 | ⟨q2, hq2, h2⟩
      · simp [h1, slotRank]
      · have := h.1 q2 hq2
        simp [h2, slotRank, this]

theorem perm_insertRanked {E : Type} (getSizes : E → Nat) (p : EntryPtr E)
    (l : List (EntryPtr E)) : (insertRanked getSizes p l).Perm (p :: l) := by
  induction l with
  | nil => simp [insertRanked]
  | cons q rest ih =>
    by_cases hq : getSizes p.entry > getSizes q.entry
    · simp [insertRanked, hq]
    · simp only [insertRanked, hq, if_false]
      exact (List.Perm.cons q ih).trans (List.Perm.swap p q rest)

theorem rankedPtrs_insertRanked {E : Type} (getSizes : E → Nat) (p : EntryPtr E)
    (l : List (EntryPtr E)) (h : RankedPtrs getSizes l) :
    RankedPtrs getSizes (insertRanked getSizes p l) := by
  induction l with
  | nil => simp [insertRanked, RankedPtrs]
  | cons q rest ih =>
    unfold RankedPtrs at h
    rw [List.pairwise_cons] at h
    by_cases hq : getSizes p.entry > getSizes q.entry
    · simp only [insertRanked, hq, if_true]
      unfold RankedPtrs
      rw [List.pairwise_cons, List.pairwise_cons]
      refine ⟨?_, h⟩
      intro b hb
      rcases List.mem_cons.mp hb with rfl | hb
      · omega
      · have := h.1 b hb
        omega
    · simp only [insertRanked, hq, if_false]
      unfold RankedPtrs
      rw [List.pairwise_cons]
      refine ⟨?_, ih h.2⟩
      intro b hb
      rcases List.mem_cons.mp ((perm_insertRanked getSizes p rest).subset hb) with rfl | hb
      · omega
      · exact h.1 b hb

theorem perm_rankAll {E : Type} (getSizes : E → Nat) (ptrs acc : List (EntryPtr E)) :
    (rankAll getSizes ptrs acc).Perm (acc ++ ptrs) := by
  induction ptrs generalizing acc with
  | nil => simp [rankAll]
  | cons p rest ih =>
    simp only [rankAll]
    refine (ih _).trans ?_
    refine ((perm_insertRanked getSizes p acc).append_right rest).trans ?_
    exact List.perm_middle.symm

theorem rankedPtrs_rankAll {E : Type} (getSizes : E → Nat) (ptrs acc : List (EntryPtr E))
    (h : RankedPtrs getSizes acc) : RankedPtrs getSizes (rankAll getSizes ptrs acc) := by
  induction ptrs generalizing acc with
  | nil => simpa [rankAll] using h
  | cons p rest ih => exact ih _ (rankedPtrs_insertRanked getSizes p acc h)

theorem sortLoop_padSlots {E : Type} (getSizes : E → Nat) (n : Nat) (hpos : 1 ≤ n)
    (ptrs acc : List (EntryPtr E)) (h : RankedPtrs getSizes acc) :
    sortLoop getSizes n ptrs (padSlots n acc) = padSlots n (rankAll getSizes ptrs acc) := by
  induction ptrs generalizing acc with
  | nil => rfl
  | cons p rest ih =>
    simp only [sortLoop, rankAll]
    rw [sortStep_eq_insertSlots getSizes n p _ (rankedSlots_padSlots getSizes n acc h)
      (length_padSlots n acc) hpos, insertSlots_padSlots]
    exact ih _ (rankedPtrs_insertRanked getSizes p acc h)

/-- For a positive slot count the output of `sort` is the ranked list of all
scanned pointers, cut to `n` slots and filled up with null slots. -/
theorem sort_eq_padSlots {E : Type} (getSizes : E → Nat) (table : List E) (n : Nat)
    (hpos : 1 ≤ n) :
    sort getSizes table n = some (padSlots n (rankAll getSizes (scanPtrs 0 table) [])) := by
  have hn : n ≠ 0 := by omega
  simp only [sort, hn, if_false]
  rw [← padSlots_nil, sortLoop_padSlots getSizes n hpos _ [] (by simp [RankedPtrs])]

end LogHashtable

namespace LogHashtable

theorem reduceOption_padSlots {E : Type} (n : Nat) (l : List (EntryPtr E)) :
    (padSlots n l).reduceOption = l.take n := by
  induction n generalizing l with
  | zero => simp [padSlots]
  | succ n ih =>
    cases l with
    | nil =>
      have h := ih []
      simp only [padSlots, List.reduceOption_cons_of_none, h]
      simp
    | cons q rest => simp [padSlots, List.reduceOption_cons_of_some, ih]

theorem map_entry_scanPtrs {E : Type} (k : Nat) (table : List E) :
    (scanPtrs k table).map (fun q => q.entry) = table := by
  induction table generalizing k with
  | nil => rfl
  | cons e rest ih => simp [scanPtrs, ih]

theorem length_scanPtrs {E : Type} (k : Nat) (table : List E) :
    (scanPtrs k table).length = table.length := by
  induction table generalizing k with
  | nil => rfl
  | cons e rest ih => simp [scanPtrs, ih]

theorem map_sizes_scanPtrs {E : Type} (getSizes : E → Nat) (k : Nat) (table : List E) :
    (scanPtrs k table).map (fun q => getSizes q.entry) = table.map getSizes := by
  induction table generalizing k with
  | nil => rfl
  | cons e rest ih => simp [scanPtrs, ih]

theorem mem_scanPtrs {E : Type} (k : Nat) (table : List E) (q : EntryPtr E) :
    q ∈ scanPtrs k table ↔ k ≤ q.pos ∧ table.get? (q.pos - k) = some q.entry := by
  induction table generalizing k with
  | nil => simp [scanPtrs]
  | cons e rest ih =>
    simp only [scanPtrs, List.mem_cons, ih]
    constructor
    · rintro (h | ⟨h1, h2⟩)
      · subst h
        simp
      · refine ⟨by omega, ?_⟩
        have h3 : q.pos - k = (q.pos - (k + 1)) + 1 := by omega
        rw [h3]
        simpa using h2
    · rintro ⟨h1, h2⟩
      by_cases hk : q.pos = k
      · left
        rw [hk] at h2
        simp at h2
        cases q
        simp_all
      · right
        refine ⟨by omega, ?_⟩
        have h3 : q.pos - k = (q.pos - (k + 1)) + 1 := by omega
        rw [h3] at h2
        simpa using h2

end LogHashtable

namespace LogHashtable

/-- The output of `sort` is an input the cursor is written for. -/
theorem cursorInput_sort {E : Type} (getSizes : E → Nat) (table : List E) (n : Nat) :
    CursorInput (sort getSizes table n) n := by
  by_cases hn : n = 0
  · simp [sort, hn, CursorInput]
  · rw [sort_eq_padSlots getSizes table n (by omega)]
    have hrank := rankedSlots_padSlots getSizes n _
      (rankedPtrs_rankAll getSizes (scanPtrs 0 table) [] (by simp [RankedPtrs]))
    refine ⟨length_padSlots _ _, ?_⟩
    generalize padSlots n (rankAll getSizes (scanPtrs 0 table) []) = arr at hrank
    intro hhead a ha
    cases arr with
    | nil => simp at ha
    | cons a0 rest =>
      simp only [List.head?_cons, Option.some.injEq] at hhead
      subst hhead
      rcases List.mem_cons.mp ha with rfl | ha
      · rfl
      · unfold RankedSlots at hrank
        rw [List.pairwise_cons] at hrank
        have := hrank.1 a ha
        cases a with
        | none => rfl
        | some q => simp [slotRank] at this

end LogHashtable

theorem wrapSub_wrapAdd (w a s : Nat) (h : a < 2 ^ w) : wrapSub w (wrapAdd w a s) s = a := by
  unfold wrapSub wrapAdd
  generalize 2 ^ w = M at h
  have hM : 0 < M := by omega
  have ht := Nat.mod_lt s hM
  have e1 : (a + s) % M = (a + s % M) % M := by
    rw [Nat.add_mod, Nat.mod_eq_of_lt h]
  rw [e1]
  generalize s % M = t at ht
  by_cases hlt : a + t < M
  · rw [Nat.mod_eq_of_lt hlt]
    have e2 : a + t + (M - t) = a + M := by omega
    rw [e2, Nat.add_mod_right, Nat.mod_eq_of_lt h]
  · have e3 : (a + t) % M = a + t - M := by
      rw [Nat.mod_eq_sub_mod (by omega), Nat.mod_eq_of_lt (by omega)]
    rw [e3]
    have e4 : a + t - M + (M - t) = a := by omega
    rw [e4, Nat.mod_eq_of_lt h]

namespace LogHashtable

theorem slotAt_eq_getElem {E : Type} (retval : List (Option (EntryPtr E))) (i : Nat) :
    slotAt retval i = retval[i]?.getD none := by
  unfold slotAt
  rw [List.getD_eq_getElem?_getD]

theorem shiftStore_slots {E : Type} (n : Nat) (retval : List (Option (EntryPtr E))) (i : Nat)
    (p : EntryPtr E) (hlen : retval.length = n) (hi : i < n) :
    (shiftStore n retval i p).length = n ∧
    (∀ j, j < i → slotAt (shiftStore n retval i p) j = slotAt retval j) ∧
    slotAt (shiftStore n retval i p) i = some p ∧
    (∀ j, i ≤ j → j + 1 < n → slotAt (shiftStore n retval i p) (j + 1) = slotAt retval j) := by
  have htake : (retval.take i).length = i := by
    rw [List.length_take]
    omega
  refine ⟨?_, ?_, ?_, ?_⟩
  · simp only [shiftStore, List.length_append, List.length_cons, List.length_take,
      List.length_drop]
    omega
  · intro j hj
    rw [slotAt_eq_getElem, slotAt_eq_getElem]
    unfold shiftStore
    rw [List.getElem?_append_left (by omega), List.getElem?_take_of_lt hj]
  · rw [slotAt_eq_getElem]
    unfold shiftStore
    rw [List.getElem?_append_right (by omega), htake]
    simp
  · intro j hij hjn
    rw [slotAt_eq_getElem, slotAt_eq_getElem]
    unfold shiftStore
    rw [List.getElem?_append_right (by omega), htake]
    have h1 : j + 1 - i = (j - i) + 1 := by omega
    rw [h1, List.getElem?_cons_succ, List.getElem?_take_of_lt (by omega), List.getElem?_drop]
    have h2 : i + (j - i) = j := by omega
    rw [h2]

theorem scanPtrs_append {E : Type} (k : Nat) (l1 l2 : List E) :
    scanPtrs k (l1 ++ l2) = scanPtrs k l1 ++ scanPtrs (k + l1.length) l2 := by
  induction l1 generalizing k with
  | nil => simp [scanPtrs]
  | cons e rest ih =>
    have h : k + 1 + rest.length = k + (rest.length + 1) := by omega
    show (⟨k, e⟩ : EntryPtr E) :: scanPtrs (k + 1) (rest ++ l2)
      = ⟨k, e⟩ :: scanPtrs (k + 1) rest ++ scanPtrs (k + (rest.length + 1)) l2
    rw [ih, h]
    rfl

theorem sortLoop_append {E : Type} (getSizes : E → Nat) (n : Nat)
    (l1 l2 : List (EntryPtr E)) (retval : List (Option (EntryPtr E))) :
    sortLoop getSizes n (l1 ++ l2) retval
      = sortLoop getSizes n l2 (sortLoop getSizes n l1 retval) := by
  induction l1 generalizing retval with
  | nil => rfl
  | cons p rest ih =>
    show sortLoop getSizes n (rest ++ l2) (sortStep getSizes n retval p)
      = sortLoop getSizes n l2 (sortLoop getSizes n rest (sortStep getSizes n retval p))
    exact ih _

/-- The array after the scan of the first entries of the table is the ranked
list of their pointers, cut to `n` slots and filled up with null slots. -/
theorem sortLoop_scanned {E : Type} (getSizes : E → Nat) (n : Nat) (hpos : 1 ≤ n)
    (scanned : List E) :
    sortLoop getSizes n (scanPtrs 0 scanned) (List.replicate n none)
      = padSlots n (rankAll getSizes (scanPtrs 0 scanned) []) := by
  rw [← padSlots_nil, sortLoop_padSlots getSizes n hpos _ [] (by simp [RankedPtrs])]

end LogHashtable

namespace LogHashtable

theorem padSlots_eq {E : Type} (n : Nat) (l : List (EntryPtr E)) :
    padSlots n l = (l.take n).map some ++ List.replicate (n - l.length) none := by
  induction n generalizing l with
  | zero => simp [padSlots]
  | succ n ih =>
    cases l with
    | nil => simp [padSlots, padSlots_nil, List.replicate_succ]
    | cons q rest => simp [padSlots, ih]

theorem padSlots_getElem_some {E : Type} (n : Nat) (l : List (EntryPtr E)) (i : Nat)
    (p : EntryPtr E) (h : (padSlots n l)[i]? = some (some p)) : l[i]? = some p ∧ i < n := by
  induction n generalizing l i with
  | zero => simp [padSlots] at h
  | succ n ih =>
    cases l with
    | nil =>
      cases i with
      | zero => simp [padSlots] at h
      | succ i =>
        simp only [padSlots, List.getElem?_cons_succ] at h
        have := (ih [] i h).1
        simp at this
    | cons q rest =>
      cases i with
      | zero =>
        simp only [padSlots, List.getElem?_cons_zero, Option.some.injEq] at h
        simp [h]
      | succ i =>
        simp only [padSlots, List.getElem?_cons_succ] at h
        have := ih rest i h
        simp only [List.getElem?_cons_succ]
        exact ⟨this.1, by omega⟩

theorem scanRanked_insertRanked {E : Type} (getSizes : E → Nat) (p : EntryPtr E)
    (l : List (EntryPtr E)) (h : l.Pairwise (ScanRanked getSizes))
    (hpos : ∀ q ∈ l, q.pos < p.pos) :
    (insertRanked getSizes p l).Pairwise (ScanRanked getSizes) := by
  induction l with
  | nil => simp [insertRanked]
  | cons q rest ih =>
    rw [List.pairwise_cons] at h
    have hq := hpos q (by simp)
    by_cases hlt : getSizes p.entry > getSizes q.entry
    · simp only [insertRanked, hlt, if_true]
      rw [List.pairwise_cons, List.pairwise_cons]
      refine ⟨?_, h⟩
      intro b hb
      rcases List.mem_cons.mp hb with rfl | hb
      · exact Or.inl hlt
      · rcases h.1 b hb with h1 | h1
        · exact Or.inl (by omega)
        · exact Or.inl (by omega)
    · simp only [insertRanked, hlt, if_false]
      rw [List.pairwise_cons]
      refine ⟨?_, ih h.2 (fun x hx => hpos x (by simp [hx]))⟩
      intro b hb
      rcases List.mem_cons.mp ((perm_insertRanked getSizes p rest).subset hb) with rfl | hb
      · unfold ScanRanked
        omega
      · exact h.1 b hb

theorem scanRanked_rankAll {E : Type} (getSizes : E → Nat) (ptrs acc : List (EntryPtr E))
    (h : acc.Pairwise (ScanRanked getSizes))
    (hptrs : ptrs.Pairwise (fun a b => a.pos < b.pos))
    (hpos : ∀ q ∈ acc, ∀ p ∈ ptrs, q.pos < p.pos) :
    (rankAll getSizes ptrs acc).Pairwise (ScanRanked getSizes) := by
  induction ptrs generalizing acc with
  | nil => simpa [rankAll] using h
  | cons p rest ih =>
    rw [List.pairwise_cons] at hptrs
    refine ih _ (scanRanked_insertRanked getSizes p acc h
      (fun q hq => hpos q hq p (by simp))) hptrs.2 ?_
    intro q hq x hx
    rcases List.mem_cons.mp ((perm_insertRanked getSizes p acc).subset hq) with rfl | hq
    · exact hptrs.1 x hx
    · exact hpos q hq x (by simp [hx])

theorem pairwise_pos_scanPtrs {E : Type} (k : Nat) (table : List E) :
    (scanPtrs k table).Pairwise (fun a b => a.pos < b.pos) := by
  induction table generalizing k with
  | nil => simp [scanPtrs]
  | cons e rest ih =>
    simp only [scanPtrs]
    rw [List.pairwise_cons]
    refine ⟨?_, ih (k + 1)⟩
    intro b hb
    have := ((mem_scanPtrs (k + 1) rest b).mp hb).1
    show k < b.pos
    omega

/-- The ranked list of all scanned pointers is a stable ranking. -/
theorem scanRanked_scanned {E : Type} (getSizes : E → Nat) (table : List E) :
    (rankAll getSizes (scanPtrs 0 table) []).Pairwise (ScanRanked getSizes) :=
  scanRanked_rankAll getSizes (scanPtrs 0 table) [] List.Pairwise.nil
    (pairwise_pos_scanPtrs 0 table) (by simp)

theorem searchLoop_stop {E : Type} (getSizes : E → Nat) (retval : List (Option (EntryPtr E)))
    (s i : Nat) (h : slotYields getSizes s (slotAt retval i) = false) :
    searchLoop getSizes retval s i = (i : Int) := by
  cases i with
  | zero => simp [searchLoop, h]
  | succ i => simp [searchLoop, h]

end LogHashtable

namespace LogHashtable

theorem scanRanked_orderedInsert {E : Type} (getSizes : E → Nat) (a : EntryPtr E)
    (l : List (EntryPtr E)) (h : l.Pairwise (ScanRanked getSizes))
    (hpos : ∀ c ∈ l, a.pos < c.pos) :
    (l.orderedInsert (fun a b => getSizes b.entry ≤ getSizes a.entry) a).Pairwise
      (ScanRanked getSizes) := by
  induction l with
  | nil => simp
  | cons c rest ih =>
    rw [List.pairwise_cons] at h
    have hc := hpos c (by simp)
    by_cases hle : getSizes c.entry ≤ getSizes a.entry
    · rw [List.orderedInsert, if_pos hle, List.pairwise_cons, List.pairwise_cons]
      refine ⟨?_, h⟩
      intro b hb
      rcases List.mem_cons.mp hb with rfl | hb
      · unfold ScanRanked
        omega
      · have hbpos := hpos b (by simp [hb])
        have := h.1 b hb
        unfold ScanRanked at this ⊢
        omega
    · rw [List.orderedInsert, if_neg hle, List.pairwise_cons]
      refine ⟨?_, ih h.2 (fun x hx => hpos x (by simp [hx]))⟩
      intro b hb
      rcases List.mem_cons.mp ((List.perm_orderedInsert _ a rest).subset hb) with rfl | hb
      · unfold ScanRanked
        omega
      · exact h.1 b hb

/-- The stable sort of pointers in scan order lists them by non-increasing
size, pointers of equal size in scan order. -/
theorem scanRanked_stableSortBySize {E : Type} (getSizes : E → Nat) (ptrs : List (EntryPtr E))
    (hptrs : ptrs.Pairwise (fun a b => a.pos < b.pos)) :
    (stableSortBySize getSizes ptrs).Pairwise (ScanRanked getSizes) := by
  induction ptrs with
  | nil => simp [stableSortBySize]
  | cons a rest ih =>
    rw [List.pairwise_cons] at hptrs
    unfold stableSortBySize
    rw [List.insertionSort]
    refine scanRanked_orderedInsert getSizes a _ (ih hptrs.2) ?_
    intro c hc
    exact hptrs.1 c ((List.perm_insertionSort _ rest).subset hc)

theorem eq_of_perm_of_scanRanked {E : Type} (getSizes : E → Nat) (l1 l2 : List (EntryPtr E))
    (hp : l1.Perm l2) (h1 : l1.Pairwise (ScanRanked getSizes))
    (h2 : l2.Pairwise (ScanRanked getSizes)) : l1 = l2 := by
  haveI : IsAntisymm (EntryPtr E) (ScanRanked getSizes) :=
    ⟨fun a b hab hba => by
      unfold ScanRanked at hab hba
      omega⟩
  exact List.eq_of_perm_of_sorted hp h1 h2

/-- The ranked list built by the scan loop is the stable sort of the scan
sequence. -/
theorem rankAll_eq_stableSortBySize {E : Type} (getSizes : E → Nat) (table : List E) :
    rankAll getSizes (scanPtrs 0 table) [] = stableSortBySize getSizes (scanPtrs 0 table) := by
  apply eq_of_perm_of_scanRanked getSizes
  · have h1 := perm_rankAll getSizes (scanPtrs 0 table) []
    simp only [List.nil_append] at h1
    exact h1.trans (List.perm_insertionSort _ _).symm
  · exact scanRanked_scanned getSizes table
  · exact scanRanked_stableSortBySize getSizes _ (pairwise_pos_scanPtrs 0 table)

end LogHashtable

theorem wrapSub_wrapAdd_mod (w a s : Nat) : wrapSub w (wrapAdd w a s) s = a % 2 ^ w := by
  have hM : 0 < 2 ^ w := Nat.two_pow_pos w
  have h1 : wrapAdd w a s = wrapAdd w (a % 2 ^ w) s := by
    unfold wrapAdd
    rw [Nat.add_mod, Nat.add_mod (a % 2 ^ w) s, Nat.mod_mod]
  rw [h1]
  exact wrapSub_wrapAdd w (a % 2 ^ w) s (Nat.mod_lt a hM)

theorem wrapSub_of_lt (w a s : Nat) (h1 : a < s) (h2 : s < 2 ^ w) :
    wrapSub w a s = a + 2 ^ w - s ∧ wrapSub w a s ≠ 0 := by
  unfold wrapSub
  generalize 2 ^ w = M at h2
  rw [Nat.mod_eq_of_lt h2, Nat.mod_eq_of_lt (by omega)]
  omega

namespace LogHashtable

theorem exposedAt_iff {E : Type} (getSizes : E → Nat) (arr : List (Option (EntryPtr E)))
    (j : Nat) :
    exposedAt getSizes arr j = true ↔
      ∃ p p0, arr.get? j = some (some p) ∧ arr.get? 0 = some (some p0) ∧
        getSizes p0.entry < 100 * getSizes p.entry := by
  unfold exposedAt
  cases arr with
  | nil => simp
  | cons a0 rest =>
    cases hj : (a0 :: rest).get? j with
    | none => simp
    | some a =>
      cases a with
      | none => simp
      | some p =>
        cases a0 with
        | none => simp
        | some p0 => simp

/-- The cursor on an input it is written for, asked for slot `j` below `n`. -/
theorem next_of_lt {E : Type} (getSizes : E → Nat) (arr : List (Option (EntryPtr E)))
    (n j : Nat) (h : CursorInput (some arr) n) (hj : j < n) :
    next getSizes ((j : Int) - 1) (some arr) n
      = some (if exposedAt getSizes arr j then (j : Int) else -1) := by
  obtain ⟨hlen, hhead⟩ := h
  have hlt : j < arr.length := by omega
  have h1 : ¬ ((j : Int) - 1 + 1 < 0) := by omega
  have h2 : ¬ ((n : Int) ≤ (j : Int) - 1 + 1) := by omega
  have h3 : ((j : Int) - 1 + 1).toNat = j := by omega
  have h4 : (j : Int) - 1 + 1 = (j : Int) := by omega
  have hget : arr[j]? = some (arr.get ⟨j, hlt⟩) := by
    rw [← List.get?_eq_getElem?]
    exact List.get?_eq_get hlt
  simp only [next, h1, h2, h3, if_false]
  unfold exposedAt
  cases ha : arr.get ⟨j, hlt⟩ with
  | none =>
    rw [ha] at hget
    simp [hget]
  | some p =>
    rw [ha] at hget
    have hmem : some p ∈ arr := by
      rw [← ha]
      exact List.get_mem arr _ _
    cases arr with
    | nil => simp at hlt
    | cons a0 rest =>
      cases a0 with
      | none =>
        have := hhead rfl (some p) hmem
        simp at this
      | some p0 =>
        have hdiv : getSizes p.entry ≤ getSizes p0.entry / 100 ↔
            ¬ getSizes p0.entry < 100 * getSizes p.entry := by
          rw [Nat.le_div_iff_mul_le (by decide : 0 < 100)]
          omega
        by_cases h5 : getSizes p.entry ≤ getSizes p0.entry / 100
        · have h6 := hdiv.mp h5
          simp [hget, h5, h6]
        · have h6 : getSizes p0.entry < 100 * getSizes p.entry := by
            by_contra hc
            exact h5 (hdiv.mpr hc)
          simp [hget, h5, h6, h4]

theorem next_of_ge {E : Type} (getSizes : E → Nat)
    (sorted : Option (List (Option (EntryPtr E)))) (n j : Nat) (hj : n ≤ j) :
    next getSizes ((j : Int) - 1) sorted n = some (-1) := by
  have h1 : ¬ ((j : Int) - 1 + 1 < 0) := by omega
  have h2 : (n : Int) ≤ (j : Int) - 1 + 1 := by omega
  cases sorted with
  | none => rfl
  | some arr => simp only [next, h1, h2, if_false, if_true]

theorem exposedAt_of_succ {E : Type} (getSizes : E → Nat) (arr : List (Option (EntryPtr E)))
    (hrank : RankedSlots getSizes arr) (j : Nat)
    (h : exposedAt getSizes arr (j + 1) = true) : exposedAt getSizes arr j = true := by
  rw [exposedAt_iff] at h ⊢
  obtain ⟨p, p0, hp, hp0, hsz⟩ := h
  rw [List.get?_eq_getElem?, List.getElem?_eq_some] at hp
  obtain ⟨hlt, hpe⟩ := hp
  have hlt2 : j < arr.length := by omega
  unfold RankedSlots at hrank
  rw [List.pairwise_iff_getElem] at hrank
  have hr := hrank j (j + 1) hlt2 hlt (by omega)
  rw [hpe] at hr
  cases hq : arr[j] with
  | none =>
    rw [hq] at hr
    simp [slotRank] at hr
  | some q =>
    rw [hq] at hr
    simp only [slotRank] at hr
    refine ⟨q, p0, ?_, hp0, by omega⟩
    rw [List.get?_eq_getElem?, List.getElem?_eq_some]
    exact ⟨hlt2, hq⟩

theorem exposedAt_of_le {E : Type} (getSizes : E → Nat) (arr : List (Option (EntryPtr E)))
    (hrank : RankedSlots getSizes arr) (i d : Nat)
    (h : exposedAt getSizes arr (i + d) = true) : exposedAt getSizes arr i = true := by
  induction d with
  | zero => exact h
  | succ d ih => exact ih (exposedAt_of_succ getSizes arr hrank (i + d) h)

theorem cursorWalk_range {E : Type} (getSizes : E → Nat) (arr : List (Option (EntryPtr E)))
    (n k : Nat) (hin : CursorInput (some arr) n) (hk : k ≤ n)
    (hexp : ∀ j, j < k → exposedAt getSizes arr j = true)
    (hend : k < n → exposedAt getSizes arr k = false) :
    ∀ d j fuel, j + d = k → d + 1 ≤ fuel →
      cursorWalk getSizes (some arr) n fuel ((j : Int) - 1)
        = some ((List.range' j d).map (fun i => (i : Int))) := by
  intro d
  induction d with
  | zero =>
    intro j fuel hjk hfuel
    obtain ⟨f, rfl⟩ : ∃ f, fuel = f + 1 := ⟨fuel - 1, by omega⟩
    have hj : j = k := by omega
    subst hj
    have hnext : next getSizes ((j : Int) - 1) (some arr) n = some (-1) := by
      by_cases hjn : j < n
      · rw [next_of_lt getSizes arr n j hin hjn, hend hjn]
        rfl
      · exact next_of_ge getSizes (some arr) n j (by omega)
    simp [cursorWalk, hnext]
  | succ d ih =>
    intro j fuel hjk hfuel
    obtain ⟨f, rfl⟩ : ∃ f, fuel = f + 1 := ⟨fuel - 1, by omega⟩
    have hjn : j < n := by omega
    have hnext : next getSizes ((j : Int) - 1) (some arr) n = some (j : Int) := by
      rw [next_of_lt getSizes arr n j hin hjn, hexp j (by omega)]
      rfl
    have hne : ¬ ((j : Int) = -1) := by omega
    have hrec := ih (j + 1) f (by omega) (by omega)
    have hcast : (((j + 1 : Nat) : Int) - 1) = (j : Int) := by omega
    rw [hcast] at hrec
    simp only [cursorWalk, hnext, hne, if_false, hrec, Option.map_some']
    rfl

end LogHashtable

namespace LogHashtable

/-- The non-empty slots that pass the 1% test are the slots below some `k`. -/
theorem exposed_initial {E : Type} (getSizes : E → Nat) (arr : List (Option (EntryPtr E)))
    (hrank : RankedSlots getSizes arr) (n : Nat) :
    ∃ k, k ≤ n ∧ (∀ j, j < k → exposedAt getSizes arr j = true) ∧
      (∀ j, k ≤ j → j < n → exposedAt getSizes arr j = false) := by
  induction n with
  | zero => exact ⟨0, le_refl _, by simp, by simp⟩
  | succ n ih =>
    obtain ⟨k, hk, h1, h2⟩ := ih
    by_cases hkn : k = n
    · by_cases hex : exposedAt getSizes arr n = true
      · refine ⟨n + 1, le_refl _, ?_, ?_⟩
        · intro j hj
          by_cases hjn : j = n
          · rw [hjn]
            exact hex
          · exact h1 j (by omega)
        · intro j hj1 hj2
          omega
      · refine ⟨k, by omega, h1, ?_⟩
        intro j hj1 hj2
        by_cases hjn : j = n
        · rw [hjn]
          simpa using hex
        · exact h2 j hj1 (by omega)
    · refine ⟨k, by omega, h1, ?_⟩
      intro j hj1 hj2
      by_cases hjn : j = n
      · have hkf := h2 k (le_refl _) (by omega)
        by_contra hc
        have hjt : exposedAt getSizes arr (k + (j - k)) = true := by
          have : k + (j - k) = j := by omega
          rw [this]
          simpa using hc
        have := exposedAt_of_le getSizes arr hrank k (j - k) hjt
        rw [hkf] at this
        exact absurd this (by simp)
      · exact h2 j hj1 (by omega)

theorem pairwise_pos_ne_scanned {E : Type} (getSizes : E → Nat) (table : List E) :
    (rankAll getSizes (scanPtrs 0 table) []).Pairwise (fun a b => a.pos ≠ b.pos) := by
  have hperm := perm_rankAll getSizes (scanPtrs 0 table) []
  simp only [List.nil_append] at hperm
  have h1 : (scanPtrs 0 table).Pairwise (fun a b => a.pos ≠ b.pos) :=
    (pairwise_pos_scanPtrs 0 table).imp (fun h => Nat.ne_of_lt h)
  exact (hperm.pairwise_iff (fun h => Ne.symm h)).mpr h1

/-- The run of `sort` over a table passes through the array reached after
the scan of any initial part of the table. -/
theorem sort_split {E : Type} (getSizes : E → Nat) (scanned rest : List E) (n : Nat)
    (hpos : 1 ≤ n) :
    sort getSizes (scanned ++ rest) n
      = some (sortLoop getSizes n (scanPtrs scanned.length rest)
          (sortLoop getSizes n (scanPtrs 0 scanned) (List.replicate n none))) := by
  have hn : n ≠ 0 := by omega
  simp only [sort, hn, if_false]
  rw [scanPtrs_append, sortLoop_append, Nat.zero_add]

end LogHashtable

namespace LogHashtable

/-- The reads of the inner loop started at `i0` lie between 0 and `i0`, there
are at most `i0 + 1` of them, and the loop is left with the value `searchLoop`
computes, between -1 and `i0`. -/
theorem searchReads_bounds {E : Type} (getSizes : E → Nat)
    (retval : List (Option (EntryPtr E))) (s : Nat) (i0 : Nat) :
    (∀ i ∈ (searchReads getSizes retval s i0).1, 0 ≤ i ∧ i ≤ (i0 : Int)) ∧
    (searchReads getSizes retval s i0).1.length ≤ i0 + 1 ∧
    (searchReads getSizes retval s i0).2 = searchLoop getSizes retval s i0 ∧
    -1 ≤ searchLoop getSizes retval s i0 ∧ searchLoop getSizes retval s i0 ≤ (i0 : Int) := by
  induction i0 with
  | zero =>
    cases hy : slotYields getSizes s (slotAt retval 0) <;> simp [searchReads, searchLoop, hy]
  | succ i0 ih =>
    obtain ⟨h1, h2, h3, h4, h5⟩ := ih
    cases hy : slotYields getSizes s (slotAt retval (i0 + 1)) with
    | true =>
      have e1 : searchReads getSizes retval s (i0 + 1)
          = (((i0 + 1 : Nat) : Int) :: (searchReads getSizes retval s i0).1,
              (searchReads getSizes retval s i0).2) := by
        simp [searchReads, hy]
      have e2 : searchLoop getSizes retval s (i0 + 1) = searchLoop getSizes retval s i0 := by
        simp [searchLoop, hy]
      rw [e1, e2]
      refine ⟨?_, ?_, h3, h4, by omega⟩
      · intro i hi
        rcases List.mem_cons.mp hi with rfl | hi
        · omega
        · have := h1 i hi
          omega
      · simp only [List.length_cons]
        omega
    | false =>
      have e1 : searchReads getSizes retval s (i0 + 1)
          = ([((i0 + 1 : Nat) : Int)], ((i0 + 1 : Nat) : Int)) := by
        simp [searchReads, hy]
      have e2 : searchLoop getSizes retval s (i0 + 1) = ((i0 + 1 : Nat) : Int) := by
        simp [searchLoop, hy]
      rw [e1, e2]
      refine ⟨?_, ?_, rfl, by omega, le_refl _⟩
      · intro i hi
        rw [List.mem_singleton] at hi
        omega
      · simp

end LogHashtable

/-! ## The claims -/

/-- C1: for a positive slot count `sort` returns an array of `n` slots; the
sizes held in its non-empty slots, read from slot 0 upward, are the first
`min n (table size)` elements of the table sizes arranged in non-increasing
order; every pointer kept refers to a table entry, and every table entry left
out is at most as large as every entry kept. -/
theorem LogHashtable.sort_holds_largest {E : Type} (getSizes : E → Nat) (table : List E)
    (n : Nat) (hn : 1 ≤ n) :
    ∃ result, LogHashtable.sort getSizes table n = some result ∧ result.length = n ∧
      (∃ S : List Nat, S.Perm (table.map getSizes) ∧ S.Sorted (· ≥ ·) ∧
        result.reduceOption.map (fun q => getSizes q.entry) = S.take (min n table.length)) ∧
      (∀ q ∈ result.reduceOption, table.get? q.pos = some q.entry) ∧
      (∀ k e, table.get? k = some e → (∀ q ∈ result.reduceOption, q.pos ≠ k) →
        ∀ q ∈ result.reduceOption, getSizes e ≤ getSizes q.entry) := by
  have hperm := LogHashtable.perm_rankAll getSizes (LogHashtable.scanPtrs 0 table) []
  have hrank := LogHashtable.rankedPtrs_rankAll getSizes (LogHashtable.scanPtrs 0 table) []
    (by simp [LogHashtable.RankedPtrs])
  simp only [List.nil_append] at hperm
  refine ⟨_, LogHashtable.sort_eq_padSlots getSizes table n hn,
    LogHashtable.length_padSlots _ _, ?_, ?_, ?_⟩
  · refine ⟨(LogHashtable.rankAll getSizes (LogHashtable.scanPtrs 0 table) []).map
      (fun q => getSizes q.entry), ?_, ?_, ?_⟩
    · have h1 := hperm.map (fun q => getSizes q.entry)
      rw [LogHashtable.map_sizes_scanPtrs] at h1
      exact h1
    · unfold List.Sorted
      rw [List.pairwise_map]
      exact hrank
    · rw [LogHashtable.reduceOption_padSlots, List.map_take]
      have hlen : ((LogHashtable.rankAll getSizes (LogHashtable.scanPtrs 0 table) []).map
          (fun q => getSizes q.entry)).length = table.length := by
        rw [List.length_map, hperm.length_eq, LogHashtable.length_scanPtrs]
      rcases Nat.le_total n table.length with h | h
      · rw [Nat.min_eq_left h]
      · rw [Nat.min_eq_right h, List.take_of_length_le (by omega),
          List.take_of_length_le (by omega)]
  · intro q hq
    rw [LogHashtable.reduceOption_padSlots] at hq
    have h1 := hperm.subset (List.mem_of_mem_take hq)
    simpa using ((LogHashtable.mem_scanPtrs 0 table q).mp h1).2
  · intro k e hk hout q hq
    rw [LogHashtable.reduceOption_padSlots] at hq hout
    have hmem : (⟨k, e⟩ : LogHashtable.EntryPtr E) ∈
        LogHashtable.rankAll getSizes (LogHashtable.scanPtrs 0 table) [] := by
      apply hperm.symm.subset
      rw [LogHashtable.mem_scanPtrs]
      simpa using hk
    rw [← List.take_append_drop n
      (LogHashtable.rankAll getSizes (LogHashtable.scanPtrs 0 table) [])] at hmem
    rcases List.mem_append.mp hmem with h | h
    · exact absurd rfl (hout _ h)
    · exact List.Sorted.rel_of_mem_take_of_mem_drop hrank hq h

/-- Witness of C1 on a table of three user entries and two slots. -/
theorem LogHashtable.sort_holds_largest_witness :
    1 ≤ 2 ∧
    ∃ result, LogHashtable.sort UidEntry.getSizes sampleUidTable 2 = some result ∧
      result.length = 2 ∧
      (∃ S : List Nat, S.Perm (sampleUidTable.map UidEntry.getSizes) ∧ S.Sorted (· ≥ ·) ∧
        result.reduceOption.map (fun q => UidEntry.getSizes q.entry)
          = S.take (min 2 sampleUidTable.length)) ∧
      (∀ q ∈ result.reduceOption, sampleUidTable.get? q.pos = some q.entry) ∧
      (∀ k e, sampleUidTable.get? k = some e → (∀ q ∈ result.reduceOption, q.pos ≠ k) →
        ∀ q ∈ result.reduceOption, UidEntry.getSizes e ≤ UidEntry.getSizes q.entry) :=
  ⟨by decide, LogHashtable.sort_holds_largest UidEntry.getSizes sampleUidTable 2 (by decide)⟩

/-- C2, as stated, fails: on a table with two entries of size 5 and two slots
both entries are returned, and the size in slot 0 is not greater than the size
in slot 1. -/
theorem LogHashtable.sort_strict_counterexample :
    ∃ result p q, LogHashtable.sort UidEntry.getSizes tiedUidTable 2 = some result ∧
      result.get? 0 = some (some p) ∧ result.get? 1 = some (some q) ∧
      ¬ (UidEntry.getSizes p.entry > UidEntry.getSizes q.entry) :=
  ⟨[some ⟨0, ⟨1000, 5, 0⟩⟩, some ⟨1, ⟨1001, 5, 0⟩⟩], ⟨0, ⟨1000, 5, 0⟩⟩, ⟨1, ⟨1001, 5, 0⟩⟩,
    by decide, rfl, rfl, by decide⟩

/-- C2, amended: `sort` returns the null result for `n = 0` and otherwise an
array of `n` slots, so at most `n` entries, and the sizes in adjacent
non-empty slots do not increase. -/
theorem LogHashtable.sort_non_increasing {E : Type} (getSizes : E → Nat) (table : List E)
    (n : Nat) :
    (n = 0 ∧ LogHashtable.sort getSizes table n = none) ∨
    (∃ result, LogHashtable.sort getSizes table n = some result ∧ result.length = n ∧
      result.reduceOption.length ≤ n ∧
      ∀ j p q, result.get? j = some (some p) → result.get? (j + 1) = some (some q) →
        getSizes q.entry ≤ getSizes p.entry) := by
  by_cases hn : n = 0
  · left
    exact ⟨hn, by simp [LogHashtable.sort, hn]⟩
  · right
    have hrank := LogHashtable.rankedSlots_padSlots getSizes n _
      (LogHashtable.rankedPtrs_rankAll getSizes (LogHashtable.scanPtrs 0 table) []
        (by simp [LogHashtable.RankedPtrs]))
    refine ⟨_, LogHashtable.sort_eq_padSlots getSizes table n (by omega),
      LogHashtable.length_padSlots _ _, ?_, ?_⟩
    · rw [LogHashtable.reduceOption_padSlots]
      exact List.length_take_le _ _
    · intro j p q hp hq
      unfold LogHashtable.RankedSlots at hrank
      rw [List.pairwise_iff_getElem] at hrank
      rw [List.get?_eq_getElem?, List.getElem?_eq_some] at hp hq
      obtain ⟨h1, h1e⟩ := hp
      obtain ⟨h2, h2e⟩ := hq
      have := hrank j (j + 1) h1 h2 (by omega)
      rw [h1e, h2e] at this
      simp only [LogHashtable.slotRank] at this
      omega

/-- C3: when the cursor `next(index, sorted, n)` returns `k ≥ 0`, then `k` is
`index + 1`, slots `k` and `0` are set, and `100 * size(sorted[k])` exceeds
`size(sorted[0])` in exact arithmetic. -/
theorem LogHashtable.next_above_one_percent {E : Type} (getSizes : E → Nat) (index : Int)
    (sorted : Option (List (Option (LogHashtable.EntryPtr E)))) (n : Nat) (k : Int)
    (h : LogHashtable.next getSizes index sorted n = some k) (hk : 0 ≤ k) :
    ∃ arr p p0, sorted = some arr ∧ k = index + 1 ∧ arr.get? k.toNat = some (some p) ∧
      arr.get? 0 = some (some p0) ∧ getSizes p0.entry < 100 * getSizes p.entry := by
  cases sorted with
  | none =>
    simp only [LogHashtable.next, Option.some.injEq] at h
    omega
  | some arr =>
    simp only [LogHashtable.next] at h
    split_ifs at h with h1 h2
    · simp only [Option.some.injEq] at h
      omega
    · simp only [Option.some.injEq] at h
      omega
    · split at h
      · exact absurd h (by simp)
      · simp only [Option.some.injEq] at h
        omega
      · rename_i p hp
        split at h
        · rename_i p0 hp0
          split_ifs at h with h3
          · simp only [Option.some.injEq] at h
            omega
          · simp only [Option.some.injEq] at h
            subst h
            refine ⟨arr, p, p0, rfl, rfl, hp, ?_, ?_⟩
            · cases arr with
              | nil => simp at hp0
              | cons a rest =>
                simp only [List.head?_cons, Option.some.injEq] at hp0
                simp [hp0]
            · have := Nat.div_add_mod (getSizes p0.entry) 100
              have := Nat.mod_lt (getSizes p0.entry) (show 100 > 0 by decide)
              omega
        · exact absurd h (by simp)

/-- Witness of C3: on the ranking of three entries of sizes 120, 80, 300
over three slots, the cursor at index 0 returns 1. -/
theorem LogHashtable.next_above_one_percent_witness :
    LogHashtable.next UidEntry.getSizes 0
        (LogHashtable.sort UidEntry.getSizes sampleUidTable 3) 3 = some 1 ∧
    ∃ arr p p0, LogHashtable.sort UidEntry.getSizes sampleUidTable 3 = some arr ∧
      (1 : Int) = 0 + 1 ∧ arr.get? (1 : Int).toNat = some (some p) ∧
      arr.get? 0 = some (some p0) ∧
      UidEntry.getSizes p0.entry < 100 * UidEntry.getSizes p.entry :=
  ⟨by decide, LogHashtable.next_above_one_percent UidEntry.getSizes 0
    (LogHashtable.sort UidEntry.getSizes sampleUidTable 3) 3 1 (by decide) (by decide)⟩

/-- C4: on an input the cursor is written for, `next(index, sorted, n)` returns
the sentinel -1 exactly when the array is absent, or `index + 1` is outside
`[0, n)`, or slot `index + 1` is empty, or the size in slot `index + 1` is at
most 1% of the size in slot 0 (`100 * size ≤ size(sorted[0])`); in every other
case it returns `index + 1`. -/
theorem LogHashtable.next_sentinel_iff {E : Type} (getSizes : E → Nat) (index : Int)
    (sorted : Option (List (Option (LogHashtable.EntryPtr E)))) (n : Nat)
    (h : LogHashtable.CursorInput sorted n) :
    (LogHashtable.next getSizes index sorted n = some (-1) ↔
      (sorted = none ∨ index + 1 < 0 ∨ (n : Int) ≤ index + 1 ∨
        (∃ arr, sorted = some arr ∧ arr.get? (index + 1).toNat = some none) ∨
        (∃ arr p p0, sorted = some arr ∧ arr.get? (index + 1).toNat = some (some p) ∧
          arr.get? 0 = some (some p0) ∧ 100 * getSizes p.entry ≤ getSizes p0.entry))) ∧
    (LogHashtable.next getSizes index sorted n ≠ some (-1) →
      LogHashtable.next getSizes index sorted n = some (index + 1)) := by
  cases sorted with
  | none => simp [LogHashtable.next]
  | some arr =>
    obtain ⟨hlen, hhead⟩ := h
    by_cases h1 : index + 1 < 0
    · simp [LogHashtable.next, h1]
    by_cases h2 : (n : Int) ≤ index + 1
    · simp [LogHashtable.next, h1, h2]
    have hlt : (index + 1).toNat < arr.length := by omega
    have hget : arr[(index + 1).toNat]? = some (arr.get ⟨(index + 1).toNat, hlt⟩) := by
      rw [← List.get?_eq_getElem?]
      exact List.get?_eq_get hlt
    cases ha : arr.get ⟨(index + 1).toNat, hlt⟩ with
    | none =>
      rw [ha] at hget
      simp [LogHashtable.next, h1, h2, hget]
    | some p =>
      rw [ha] at hget
      have hmem : some p ∈ arr := by
        rw [← ha]
        exact List.get_mem arr _ _
      cases arr with
      | nil => simp at hlt
      | cons a0 rest =>
        cases a0 with
        | none =>
          have := hhead rfl (some p) hmem
          simp at this
        | some p0 =>
          have hdiv : getSizes p.entry ≤ getSizes p0.entry / 100 ↔
              100 * getSizes p.entry ≤ getSizes p0.entry := by
            rw [Nat.le_div_iff_mul_le (by decide : 0 < 100)]
            omega
          by_cases h3 : getSizes p.entry ≤ getSizes p0.entry / 100
          · have h4 := hdiv.mp h3
            simp [LogHashtable.next, h1, h2, hget, h3, h4]
          · have h4 : ¬ 100 * getSizes p.entry ≤ getSizes p0.entry := fun hh => h3 (hdiv.mpr hh)
            have h5 : ¬ (index + 1 = -1) := by omega
            simp [LogHashtable.next, h1, h2, hget, h3, h4, h5]

/-- Witness of C4 on the ranking of three entries over three slots. -/
theorem LogHashtable.next_sentinel_iff_witness :
    LogHashtable.CursorInput (LogHashtable.sort UidEntry.getSizes sampleUidTable 3) 3 ∧
    ((LogHashtable.next UidEntry.getSizes 0
        (LogHashtable.sort UidEntry.getSizes sampleUidTable 3) 3 = some (-1) ↔
      (LogHashtable.sort UidEntry.getSizes sampleUidTable 3 = none ∨ (0 : Int) + 1 < 0 ∨
        ((3 : Nat) : Int) ≤ 0 + 1 ∨
        (∃ arr, LogHashtable.sort UidEntry.getSizes sampleUidTable 3 = some arr ∧
          arr.get? ((0 : Int) + 1).toNat = some none) ∨
        (∃ arr p p0, LogHashtable.sort UidEntry.getSizes sampleUidTable 3 = some arr ∧
          arr.get? ((0 : Int) + 1).toNat = some (some p) ∧
          arr.get? 0 = some (some p0) ∧
          100 * UidEntry.getSizes p.entry ≤ UidEntry.getSizes p0.entry))) ∧
    (LogHashtable.next UidEntry.getSizes 0
        (LogHashtable.sort UidEntry.getSizes sampleUidTable 3) 3 ≠ some (-1) →
      LogHashtable.next UidEntry.getSizes 0
        (LogHashtable.sort UidEntry.getSizes sampleUidTable 3) 3 = some (0 + 1))) :=
  ⟨LogHashtable.cursorInput_sort UidEntry.getSizes sampleUidTable 3,
    LogHashtable.next_sentinel_iff UidEntry.getSizes 0
      (LogHashtable.sort UidEntry.getSizes sampleUidTable 3) 3
      (LogHashtable.cursorInput_sort UidEntry.getSizes sampleUidTable 3)⟩

/-- C5: whatever the table holds, `sort(0)` returns the null result, and the
cursor on that result with length 0 returns -1 for every index. -/
theorem LogHashtable.sort_zero {E : Type} (getSizes : E → Nat) (table : List E) :
    LogHashtable.sort getSizes table 0 = none ∧
    ∀ index : Int,
      LogHashtable.next getSizes index (LogHashtable.sort getSizes table 0) 0 = some (-1) := by
  have h : LogHashtable.sort getSizes table 0 = none := by simp [LogHashtable.sort]
  refine ⟨h, ?_⟩
  intro index
  rw [h]
  rfl

/-- C6: for `n > 0`, `sort(n)` on the empty table returns `n` slots that are
all unset, and the cursor started before the first slot returns -1. -/
theorem LogHashtable.sort_empty_table {E : Type} (getSizes : E → Nat) (n : Nat) (hn : 0 < n) :
    LogHashtable.sort getSizes ([] : List E) n = some (List.replicate n none) ∧
    LogHashtable.next getSizes (-1) (LogHashtable.sort getSizes ([] : List E) n) n
      = some (-1) := by
  have hne : n ≠ 0 := by omega
  have h : LogHashtable.sort getSizes ([] : List E) n = some (List.replicate n none) := by
    simp [LogHashtable.sort, hne, LogHashtable.scanPtrs, LogHashtable.sortLoop]
  refine ⟨h, ?_⟩
  rw [h]
  obtain ⟨m, rfl⟩ := Nat.exists_eq_succ_of_ne_zero hne
  simp [LogHashtable.next, List.replicate_succ]

/-- Witness of C6 for user entries and four slots. -/
theorem LogHashtable.sort_empty_table_witness :
    0 < 4 ∧
    LogHashtable.sort UidEntry.getSizes ([] : List UidEntry) 4 = some (List.replicate 4 none) ∧
    LogHashtable.next UidEntry.getSizes (-1)
      (LogHashtable.sort UidEntry.getSizes ([] : List UidEntry) 4) 4 = some (-1) :=
  ⟨by decide, LogHashtable.sort_empty_table UidEntry.getSizes 4 (by decide)⟩

/-- C7: for user and process entries alike, `subtract` and `subtract_dropped`
return true exactly when, after the call, size and dropped count are both
zero. -/
theorem entry_subtract_true_iff (w : Nat) (u : UidEntry) (p : PidEntry) (d : Nat) :
    ((u.subtract w d).1 = true ↔
      (u.subtract w d).2.getSizes = 0 ∧ (u.subtract w d).2.getDropped = 0) ∧
    ((u.subtract_dropped w d).1 = true ↔
      (u.subtract_dropped w d).2.getSizes = 0 ∧ (u.subtract_dropped w d).2.getDropped = 0) ∧
    ((p.subtract w d).1 = true ↔
      (p.subtract w d).2.getSizes = 0 ∧ (p.subtract w d).2.getDropped = 0) ∧
    ((p.subtract_dropped w d).1 = true ↔
      (p.subtract_dropped w d).2.getSizes = 0 ∧ (p.subtract_dropped w d).2.getDropped = 0) := by
  simp only [UidEntry.subtract, UidEntry.subtract_dropped, PidEntry.subtract,
    PidEntry.subtract_dropped, UidEntry.getSizes, UidEntry.getDropped, PidEntry.getSizes,
    PidEntry.getDropped, Bool.and_eq_true, beq_iff_eq]
  exact ⟨and_comm, and_comm, and_comm, and_comm⟩

/-- C8: `add_dropped(d)` raises the dropped count by `d` modulo `2 ^ w` and
leaves size and key of the entry as they are, and for a process entry also
the cached user identity and name. -/
theorem entry_add_dropped_frame (w : Nat) (u : UidEntry) (p : PidEntry) (d : Nat) :
    ((u.add_dropped w d).getDropped = (u.getDropped + d) % 2 ^ w ∧
      (u.add_dropped w d).getSizes = u.getSizes ∧ (u.add_dropped w d).getKey = u.getKey) ∧
    ((p.add_dropped w d).getDropped = (p.getDropped + d) % 2 ^ w ∧
      (p.add_dropped w d).getSizes = p.getSizes ∧ (p.add_dropped w d).getKey = p.getKey ∧
      (p.add_dropped w d).getUid = p.getUid ∧ (p.add_dropped w d).getName = p.getName) := by
  simp [UidEntry.add_dropped, PidEntry.add_dropped, UidEntry.getDropped, UidEntry.getSizes,
    UidEntry.getKey, PidEntry.getDropped, PidEntry.getSizes, PidEntry.getKey, PidEntry.getUid,
    PidEntry.getName, wrapAdd]

/-- C9: `erase(e)` takes one off the current element count of the category of
`e` (as `--` on a `size_t` does: exactly one off a positive count) and changes
nothing else: the current element counts of the other categories, the current
sizes, lifetime sizes and lifetime element counts of all categories, the
collection flag and the tables stay as they are. -/
theorem LogStatistics.erase_frame (w : Nat) (st : LogStatistics) (e : LogBufferElement) :
    (LogStatistics.erase w st e).elements e.getLogId
      = (st.elements e.getLogId + (2 ^ w - 1 % 2 ^ w)) % 2 ^ w ∧
    (0 < st.elements e.getLogId → st.elements e.getLogId < 2 ^ w →
      (LogStatistics.erase w st e).elements e.getLogId + 1 = st.elements e.getLogId) ∧
    (∀ id, id ≠ e.getLogId → (LogStatistics.erase w st e).elements id = st.elements id) ∧
    (∀ id, (LogStatistics.erase w st e).sizes id = st.sizes id ∧
      (LogStatistics.erase w st e).sizesTotal id = st.sizesTotal id ∧
      (LogStatistics.erase w st e).elementsTotal id = st.elementsTotal id) ∧
    (LogStatistics.erase w st e).enable = st.enable ∧
    (LogStatistics.erase w st e).uidTable = st.uidTable ∧
    (LogStatistics.erase w st e).pidTable = st.pidTable := by
  refine ⟨?_, ?_, ?_, ?_, rfl, rfl, rfl⟩
  · simp [LogStatistics.erase, LogStatistics.elements, wrapSub]
  · intro h0 hlt
    simp only [LogStatistics.erase, LogStatistics.elements, wrapSub, Function.update_same]
    simp only [LogStatistics.elements] at h0 hlt
    generalize st.mElements e.getLogId = c at h0 hlt
    generalize 2 ^ w = M at hlt
    have h1 : 1 % M = 1 := Nat.mod_eq_of_lt (by omega)
    have h2 : c + (M - 1) = (c - 1) + M := by omega
    rw [h1, h2, Nat.add_mod_right, Nat.mod_eq_of_lt (by omega)]
    omega
  · intro id hid
    simp [LogStatistics.erase, LogStatistics.elements, Function.update_noteq hid]
  · intro id
    exact ⟨rfl, rfl, rfl⟩

/-- Witness of C9 on a state holding one record in category 0. -/
theorem LogStatistics.erase_frame_witness :
    (LogStatistics.erase 64 sampleStats sampleRecord).elements 0 = 0 ∧
    (LogStatistics.erase 64 sampleStats sampleRecord).elements sampleRecord.getLogId + 1
      = sampleStats.elements sampleRecord.getLogId :=
  ⟨by decide,
    (LogStatistics.erase_frame 64 sampleStats sampleRecord).2.1 (by decide) (by decide)⟩

/-- C10: with collection enabled, `add(e)` followed by `subtract(e)` restores
the current size and the current element count of the category of `e` (for
every state the value modulo `2 ^ w`, which is the value itself for a counter
that is a `size_t` value), and the lifetime size and lifetime element count
of every category are not smaller than before. -/
theorem LogStatistics.add_subtract_restores (w : Nat) (getname : Int → Option String)
    (st : LogStatistics) (e : LogBufferElement) (hen : st.enable = true) :
    (LogStatistics.subtract w (LogStatistics.add w getname st e) e).sizes e.getLogId
      = st.sizes e.getLogId % 2 ^ w ∧
    (st.sizes e.getLogId < 2 ^ w →
      (LogStatistics.subtract w (LogStatistics.add w getname st e) e).sizes e.getLogId
        = st.sizes e.getLogId) ∧
    (LogStatistics.subtract w (LogStatistics.add w getname st e) e).elements e.getLogId
      = st.elements e.getLogId % 2 ^ w ∧
    (st.elements e.getLogId < 2 ^ w →
      (LogStatistics.subtract w (LogStatistics.add w getname st e) e).elements e.getLogId
        = st.elements e.getLogId) ∧
    (∀ id, st.sizesTotal id ≤
      (LogStatistics.subtract w (LogStatistics.add w getname st e) e).sizesTotal id) ∧
    (∀ id, st.elementsTotal id ≤
      (LogStatistics.subtract w (LogStatistics.add w getname st e) e).elementsTotal id) := by
  simp only [LogStatistics.sizes, LogStatistics.elements, LogStatistics.sizesTotal,
    LogStatistics.elementsTotal]
  simp only [LogStatistics.add, LogStatistics.subtract, hen, if_true, Function.update_same]
  refine ⟨wrapSub_wrapAdd_mod w _ _, fun hs => wrapSub_wrapAdd w _ _ hs,
    wrapSub_wrapAdd_mod w _ _, fun hc => wrapSub_wrapAdd w _ _ hc, ?_, ?_⟩
  · intro id
    by_cases hid : id = e.getLogId
    · subst hid
      simp only [Function.update_same]
      omega
    · simp [Function.update_noteq hid]
  · intro id
    by_cases hid : id = e.getLogId
    · subst hid
      simp only [Function.update_same]
      omega
    · simp [Function.update_noteq hid]

/-- Witness of C10: a second record of 80 bytes on a state holding one record
of 120 bytes. -/
theorem LogStatistics.add_subtract_restores_witness :
    sampleStats.enable = true ∧
    (LogStatistics.subtract 64 (LogStatistics.add 64 (fun _ => none) sampleStats sampleRecord)
      sampleRecord).sizes sampleRecord.getLogId = sampleStats.sizes sampleRecord.getLogId ∧
    (LogStatistics.subtract 64 (LogStatistics.add 64 (fun _ => none) sampleStats sampleRecord)
      sampleRecord).elements sampleRecord.getLogId
      = sampleStats.elements sampleRecord.getLogId ∧
    (∀ id, sampleStats.sizesTotal id ≤
      (LogStatistics.subtract 64 (LogStatistics.add 64 (fun _ => none) sampleStats sampleRecord)
        sampleRecord).sizesTotal id) ∧
    (∀ id, sampleStats.elementsTotal id ≤
      (LogStatistics.subtract 64 (LogStatistics.add 64 (fun _ => none) sampleStats sampleRecord)
        sampleRecord).elementsTotal id) :=
  ⟨rfl,
    (LogStatistics.add_subtract_restores 64 (fun _ => none) sampleStats sampleRecord rfl).2.1
      (by decide),
    (LogStatistics.add_subtract_restores 64 (fun _ => none) sampleStats sampleRecord
      rfl).2.2.2.1 (by decide),
    (LogStatistics.add_subtract_restores 64 (fun _ => none) sampleStats sampleRecord
      rfl).2.2.2.2.1,
    (LogStatistics.add_subtract_restores 64 (fun _ => none) sampleStats sampleRecord
      rfl).2.2.2.2.2⟩

/-- C11, as stated, fails: after the scan of the entries of sizes 5 and 3
into three slots the entry of size 4 is stored at slot 1, although slot 2,
further to the right, is empty. -/
theorem LogHashtable.store_rightmost_counterexample :
    LogHashtable.sortLoop UidEntry.getSizes 3
        (LogHashtable.scanPtrs 0 [(⟨1000, 5, 0⟩ : UidEntry), ⟨1001, 3, 0⟩])
        (List.replicate 3 none)
      = [some ⟨0, ⟨1000, 5, 0⟩⟩, some ⟨1, ⟨1001, 3, 0⟩⟩, none] ∧
    LogHashtable.storeIndex UidEntry.getSizes 3
        [some ⟨0, ⟨1000, 5, 0⟩⟩, some ⟨1, ⟨1001, 3, 0⟩⟩, none] 4 = 1 ∧
    LogHashtable.slotYields UidEntry.getSizes 4
        (LogHashtable.slotAt [some ⟨0, (⟨1000, 5, 0⟩ : UidEntry)⟩, some ⟨1, ⟨1001, 3, 0⟩⟩, none] 2)
      = true ∧
    LogHashtable.sort UidEntry.getSizes midUidTable 3
      = some [some ⟨0, ⟨1000, 5, 0⟩⟩, some ⟨2, ⟨1002, 4, 0⟩⟩, some ⟨1, ⟨1001, 3, 0⟩⟩] := by
  decide

/-- C11, amended: in `sort`, an entry that is placed into the output goes to
the leftmost slot whose occupant is empty or smaller than the entry (every
slot to its left holds an entry at least as large, every slot from it on is
empty or smaller); the occupants from that slot on move one slot to the
right, the occupant of the last slot being dropped, and the entry is stored
at that slot. -/
theorem LogHashtable.store_leftmost {E : Type} (getSizes : E → Nat) (scanned : List E) (e : E)
    (n : Nat) (retval : List (Option (LogHashtable.EntryPtr E))) (hn : 1 ≤ n)
    (hret : retval = LogHashtable.sortLoop getSizes n (LogHashtable.scanPtrs 0 scanned)
      (List.replicate n none))
    (hplaced : LogHashtable.storeIndex getSizes n retval (getSizes e) < (n : Int)) :
    ∃ i : Nat, LogHashtable.storeIndex getSizes n retval (getSizes e) = (i : Int) ∧ i < n ∧
      LogHashtable.slotYields getSizes (getSizes e) (LogHashtable.slotAt retval i) = true ∧
      (∀ j, j < i →
        LogHashtable.slotYields getSizes (getSizes e) (LogHashtable.slotAt retval j) = false) ∧
      (∀ j, i ≤ j → j < n →
        LogHashtable.slotYields getSizes (getSizes e) (LogHashtable.slotAt retval j) = true) ∧
      (LogHashtable.sortStep getSizes n retval ⟨scanned.length, e⟩).length = n ∧
      (∀ j, j < i →
        LogHashtable.slotAt (LogHashtable.sortStep getSizes n retval ⟨scanned.length, e⟩) j
          = LogHashtable.slotAt retval j) ∧
      LogHashtable.slotAt (LogHashtable.sortStep getSizes n retval ⟨scanned.length, e⟩) i
        = some ⟨scanned.length, e⟩ ∧
      (∀ j, i ≤ j → j + 1 < n →
        LogHashtable.slotAt (LogHashtable.sortStep getSizes n retval ⟨scanned.length, e⟩) (j + 1)
          = LogHashtable.slotAt retval j) := by
  have hpad := LogHashtable.sortLoop_scanned getSizes n hn scanned
  have hrank := LogHashtable.rankedSlots_padSlots getSizes n _
    (LogHashtable.rankedPtrs_rankAll getSizes (LogHashtable.scanPtrs 0 scanned) []
      (by simp [LogHashtable.RankedPtrs]))
  have hlen : retval.length = n := by
    rw [hret, hpad]
    exact LogHashtable.length_padSlots _ _
  rw [← hpad, ← hret] at hrank
  obtain ⟨A, B, hAB, hA, hB⟩ := LogHashtable.rankedSlots_split getSizes (getSizes e) retval hrank
  have hlenAB : A.length + B.length = n := by
    rw [← hlen, hAB, List.length_append]
  have hs := LogHashtable.searchLoop_append getSizes (getSizes e) A B hA hB (n - 1) (by omega)
  have hidx : LogHashtable.storeIndex getSizes n retval (getSizes e) = (A.length : Int) := by
    unfold LogHashtable.storeIndex
    rw [hAB, hs]
    omega
  rw [hidx] at hplaced
  have hlt : A.length < n := by omega
  have hstep : LogHashtable.sortStep getSizes n retval ⟨scanned.length, e⟩
      = LogHashtable.shiftStore n retval A.length ⟨scanned.length, e⟩ := by
    have h0 : LogHashtable.sortStep getSizes n retval ⟨scanned.length, e⟩
        = if LogHashtable.storeIndex getSizes n retval (getSizes e) < (n : Int) then
            LogHashtable.shiftStore n retval
              (LogHashtable.storeIndex getSizes n retval (getSizes e)).toNat ⟨scanned.length, e⟩
          else retval := rfl
    rw [h0, hidx, if_pos (by omega)]
    simp
  obtain ⟨h1, h2, h3, h4⟩ :=
    LogHashtable.shiftStore_slots n retval A.length ⟨scanned.length, e⟩ hlen hlt
  refine ⟨A.length, hidx, hlt, ?_, ?_, ?_, ?_, ?_, ?_, ?_⟩
  · rcases LogHashtable.slotAt_append_right A B A.length (le_refl _) with h | h
    · rw [hAB, h]
      rfl
    · rw [hAB]
      exact hB _ h
  · intro j hj
    rw [hAB]
    exact hA _ (LogHashtable.slotAt_append_left A B j hj)
  · intro j hj _
    rcases LogHashtable.slotAt_append_right A B j hj with h | h
    · rw [hAB, h]
      rfl
    · rw [hAB]
      exact hB _ h
  · rw [hstep]
    exact h1
  · rw [hstep]
    exact h2
  · rw [hstep]
    exact h3
  · rw [hstep]
    exact h4

/-- Witness of C11, amended: the entry of size 4 after the entries of sizes 5
and 3, three slots. -/
theorem LogHashtable.store_leftmost_witness :
    ∃ i : Nat, LogHashtable.storeIndex UidEntry.getSizes 3
        [some ⟨0, ⟨1000, 5, 0⟩⟩, some ⟨1, ⟨1001, 3, 0⟩⟩, none]
        (UidEntry.getSizes ⟨1002, 4, 0⟩) = (i : Int) ∧ i < 3 ∧
      LogHashtable.slotYields UidEntry.getSizes (UidEntry.getSizes ⟨1002, 4, 0⟩)
        (LogHashtable.slotAt
          [some ⟨0, (⟨1000, 5, 0⟩ : UidEntry)⟩, some ⟨1, ⟨1001, 3, 0⟩⟩, none] i) = true :=
  (LogHashtable.store_leftmost UidEntry.getSizes [⟨1000, 5, 0⟩, ⟨1001, 3, 0⟩] ⟨1002, 4, 0⟩ 3
    [some ⟨0, ⟨1000, 5, 0⟩⟩, some ⟨1, ⟨1001, 3, 0⟩⟩, none] (by decide) (by decide)
    (by decide)).imp (fun _ h => ⟨h.1, h.2.1, h.2.2.1⟩)

/-- C12: in the output of `sort`, of two kept entries of equal size the one
met earlier in the scan occupies the lower slot; when an entry is kept, every
table entry of the same size met earlier in the scan is kept too; and an
entry whose size equals that of the last slot of a full output is not
inserted. -/
theorem LogHashtable.sort_tie_break {E : Type} (getSizes : E → Nat) (table : List E) (n : Nat)
    (hn : 1 ≤ n) :
    ∃ result, LogHashtable.sort getSizes table n = some result ∧
      (∀ q ∈ result.reduceOption, table.get? q.pos = some q.entry) ∧
      (∀ i j p q, result.get? i = some (some p) → result.get? j = some (some q) →
        getSizes p.entry = getSizes q.entry → p.pos < q.pos → i < j) ∧
      (∀ q ∈ result.reduceOption, ∀ k e, table.get? k = some e →
        getSizes e = getSizes q.entry → k < q.pos →
        (⟨k, e⟩ : LogHashtable.EntryPtr E) ∈ result.reduceOption) ∧
      (∀ scanned e rest last, table = scanned ++ e :: rest →
        LogHashtable.slotAt (LogHashtable.sortLoop getSizes n (LogHashtable.scanPtrs 0 scanned)
          (List.replicate n none)) (n - 1) = some last →
        getSizes e = getSizes last.entry →
        LogHashtable.sortStep getSizes n (LogHashtable.sortLoop getSizes n
            (LogHashtable.scanPtrs 0 scanned) (List.replicate n none)) ⟨scanned.length, e⟩
          = LogHashtable.sortLoop getSizes n (LogHashtable.scanPtrs 0 scanned)
            (List.replicate n none)) := by
  have hperm := LogHashtable.perm_rankAll getSizes (LogHashtable.scanPtrs 0 table) []
  simp only [List.nil_append] at hperm
  have hsr := LogHashtable.scanRanked_scanned getSizes table
  refine ⟨_, LogHashtable.sort_eq_padSlots getSizes table n hn, ?_, ?_, ?_, ?_⟩
  · intro q hq
    rw [LogHashtable.reduceOption_padSlots] at hq
    have h1 := hperm.subset (List.mem_of_mem_take hq)
    simpa using ((LogHashtable.mem_scanPtrs 0 table q).mp h1).2
  · intro i j p q hp hq hsize hpos
    rw [List.get?_eq_getElem?] at hp hq
    have h1 := (LogHashtable.padSlots_getElem_some n _ i p hp).1
    have h2 := (LogHashtable.padSlots_getElem_some n _ j q hq).1
    rw [List.getElem?_eq_some] at h1 h2
    obtain ⟨hi, hie⟩ := h1
    obtain ⟨hj, hje⟩ := h2
    rw [List.pairwise_iff_getElem] at hsr
    by_contra hij
    rcases Nat.lt_or_ge j i with hlt | hge
    · have := hsr j i hj hi hlt
      rw [hie, hje] at this
      unfold LogHashtable.ScanRanked at this
      omega
    · have hji : i = j := by omega
      subst hji
      rw [hie] at hje
      rw [hje] at hpos
      omega
  · intro q hq k e hk hsize hpos
    rw [LogHashtable.reduceOption_padSlots] at hq ⊢
    have hmem : (⟨k, e⟩ : LogHashtable.EntryPtr E) ∈
        LogHashtable.rankAll getSizes (LogHashtable.scanPtrs 0 table) [] := by
      apply hperm.symm.subset
      rw [LogHashtable.mem_scanPtrs]
      simpa using hk
    rw [← List.take_append_drop n
      (LogHashtable.rankAll getSizes (LogHashtable.scanPtrs 0 table) [])] at hmem
    rcases List.mem_append.mp hmem with h | h
    · exact h
    · have := List.Sorted.rel_of_mem_take_of_mem_drop hsr hq h
      unfold LogHashtable.ScanRanked at this
      simp only at this
      omega
  · intro scanned e rest last _ hlast hsize
    have hstop : LogHashtable.slotYields getSizes (getSizes e)
        (LogHashtable.slotAt (LogHashtable.sortLoop getSizes n
          (LogHashtable.scanPtrs 0 scanned) (List.replicate n none)) (n - 1)) = false := by
      rw [hlast]
      simp [LogHashtable.slotYields, hsize]
    have hs := LogHashtable.searchLoop_stop getSizes _ (getSizes e) (n - 1) hstop
    simp only [LogHashtable.sortStep, hs]
    rw [if_neg (by omega)]

/-- Witness of C12 on two entries of size 5 and two slots. -/
theorem LogHashtable.sort_tie_break_witness :
    ∃ result, LogHashtable.sort UidEntry.getSizes tiedUidTable 2 = some result ∧
      (∀ q ∈ result.reduceOption, tiedUidTable.get? q.pos = some q.entry) ∧
      (∀ i j p q, result.get? i = some (some p) → result.get? j = some (some q) →
        UidEntry.getSizes p.entry = UidEntry.getSizes q.entry → p.pos < q.pos → i < j) :=
  (LogHashtable.sort_tie_break UidEntry.getSizes tiedUidTable 2 (by decide)).imp
    (fun _ h => ⟨h.1, h.2.1, h.2.2.1⟩)

/-- C13: an over-reduction is not detected.  For a delta `s` below `2 ^ w`
that exceeds the size of the entry, `subtract(s)` leaves the size at
`size + 2 ^ w - s` and returns false; likewise `subtract_dropped` on the
dropped count; for user and process entries alike. -/
theorem entry_subtract_wraps (w : Nat) (u : UidEntry) (p : PidEntry) (s : Nat)
    (hs : s < 2 ^ w) :
    (u.getSizes < s →
      (u.subtract w s).2.getSizes = u.getSizes + 2 ^ w - s ∧ (u.subtract w s).1 = false) ∧
    (u.getDropped < s →
      (u.subtract_dropped w s).2.getDropped = u.getDropped + 2 ^ w - s ∧
      (u.subtract_dropped w s).1 = false) ∧
    (p.getSizes < s →
      (p.subtract w s).2.getSizes = p.getSizes + 2 ^ w - s ∧ (p.subtract w s).1 = false) ∧
    (p.getDropped < s →
      (p.subtract_dropped w s).2.getDropped = p.getDropped + 2 ^ w - s ∧
      (p.subtract_dropped w s).1 = false) := by
  refine ⟨?_, ?_, ?_, ?_⟩
  · intro h
    obtain ⟨e1, e2⟩ := wrapSub_of_lt w u.size s h hs
    rw [e1] at e2
    simp only [UidEntry.subtract, UidEntry.getSizes, e1, Bool.and_eq_false_iff, beq_eq_false_iff_ne, ne_eq,
      true_and]
    by_cases h0 : u.dropped = 0
    · exact Or.inr e2
    · exact Or.inl h0
  · intro h
    obtain ⟨e1, e2⟩ := wrapSub_of_lt w u.dropped s h hs
    rw [e1] at e2
    simp only [UidEntry.subtract_dropped, UidEntry.getDropped, e1, Bool.and_eq_false_iff, beq_eq_false_iff_ne, ne_eq,
      true_and]
    by_cases h0 : u.size = 0
    · exact Or.inl e2
    · exact Or.inr h0
  · intro h
    obtain ⟨e1, e2⟩ := wrapSub_of_lt w p.size s h hs
    rw [e1] at e2
    simp only [PidEntry.subtract, PidEntry.getSizes, e1, Bool.and_eq_false_iff, beq_eq_false_iff_ne, ne_eq,
      true_and]
    by_cases h0 : p.dropped = 0
    · exact Or.inr e2
    · exact Or.inl h0
  · intro h
    obtain ⟨e1, e2⟩ := wrapSub_of_lt w p.dropped s h hs
    rw [e1] at e2
    simp only [PidEntry.subtract_dropped, PidEntry.getDropped, e1, Bool.and_eq_false_iff, beq_eq_false_iff_ne, ne_eq,
      true_and]
    by_cases h0 : p.size = 0
    · exact Or.inl e2
    · exact Or.inr h0

/-- Witness of C13: a delta of 7 on entries of size 5 and dropped count 2 with
a `size_t` of 32 bits. -/
theorem entry_subtract_wraps_witness :
    (7 : Nat) < 2 ^ 32 ∧
    ((UidEntry.subtract 32 ⟨1000, 5, 2⟩ 7).2.getSizes = 5 + 2 ^ 32 - 7 ∧
      (UidEntry.subtract 32 ⟨1000, 5, 2⟩ 7).1 = false) ∧
    ((PidEntry.subtract_dropped 32 ⟨50, 1000, none, 5, 2⟩ 7).2.getDropped = 2 + 2 ^ 32 - 7 ∧
      (PidEntry.subtract_dropped 32 ⟨50, 1000, none, 5, 2⟩ 7).1 = false) :=
  ⟨by decide,
    (entry_subtract_wraps 32 ⟨1000, 5, 2⟩ ⟨50, 1000, none, 5, 2⟩ 7 (by decide)).1 (by decide),
    (entry_subtract_wraps 32 ⟨1000, 5, 2⟩ ⟨50, 1000, none, 5, 2⟩ 7 (by decide)).2.2.2
      (by decide)⟩

/-- C14: for `n ≥ 1` the output of `sort(n)` is the first `n` elements of the
stable sort of the scan sequence by non-increasing size, followed by empty
slots up to length `n`. -/
theorem LogHashtable.sort_refines_stable_sort {E : Type} (getSizes : E → Nat) (table : List E)
    (n : Nat) (hn : 1 ≤ n) :
    LogHashtable.sort getSizes table n
      = some (((LogHashtable.stableSortBySize getSizes (LogHashtable.scanPtrs 0 table)).take n).map
          some ++ List.replicate (n - table.length) none) := by
  rw [LogHashtable.sort_eq_padSlots getSizes table n hn, LogHashtable.padSlots_eq,
    LogHashtable.rankAll_eq_stableSortBySize]
  have hlen : (LogHashtable.stableSortBySize getSizes (LogHashtable.scanPtrs 0 table)).length
      = table.length := by
    unfold LogHashtable.stableSortBySize
    rw [List.length_insertionSort, LogHashtable.length_scanPtrs]
  rw [hlen]

/-- Witness of C14 on the table of sizes 5, 3, 4 and two slots. -/
theorem LogHashtable.sort_refines_stable_sort_witness :
    1 ≤ 2 ∧
    LogHashtable.sort UidEntry.getSizes midUidTable 2
      = some (((LogHashtable.stableSortBySize UidEntry.getSizes
          (LogHashtable.scanPtrs 0 midUidTable)).take 2).map some
          ++ List.replicate (2 - midUidTable.length) none) :=
  ⟨by decide, LogHashtable.sort_refines_stable_sort UidEntry.getSizes midUidTable 2 (by decide)⟩

/-- C15: for `n ≥ 1`, the cursor iterated from -1 over the output of `sort(n)`
until it returns -1 yields the indices `0, 1, ..., k - 1` in order, and these
are exactly the slots below `n` that are non-empty and hold more than 1% of
the size in slot 0. -/
theorem LogHashtable.cursor_walk_sort {E : Type} (getSizes : E → Nat) (table : List E)
    (n : Nat) (hn : 1 ≤ n) :
    ∃ result k, LogHashtable.sort getSizes table n = some result ∧ k ≤ n ∧
      (∀ fuel, n + 1 ≤ fuel →
        LogHashtable.cursorWalk getSizes (some result) n fuel (-1)
          = some ((List.range k).map (fun j => (j : Int)))) ∧
      (∀ j, j < n →
        (j < k ↔ ∃ p p0, result.get? j = some (some p) ∧ result.get? 0 = some (some p0) ∧
          getSizes p0.entry < 100 * getSizes p.entry)) := by
  have hsort := LogHashtable.sort_eq_padSlots getSizes table n hn
  have hin := LogHashtable.cursorInput_sort getSizes table n
  rw [hsort] at hin
  have hrank := LogHashtable.rankedSlots_padSlots getSizes n _
    (LogHashtable.rankedPtrs_rankAll getSizes (LogHashtable.scanPtrs 0 table) []
      (by simp [LogHashtable.RankedPtrs]))
  obtain ⟨k, hk, h1, h2⟩ := LogHashtable.exposed_initial getSizes _ hrank n
  refine ⟨_, k, hsort, hk, ?_, ?_⟩
  · intro fuel hfuel
    have hw := LogHashtable.cursorWalk_range getSizes _ n k hin hk h1
      (fun hkn => h2 k (le_refl _) hkn) k 0 fuel (by omega) (by omega)
    rw [List.range_eq_range']
    simpa using hw
  · intro j hj
    rw [← LogHashtable.exposedAt_iff]
    constructor
    · intro hjk
      exact h1 j hjk
    · intro hex
      by_contra hc
      have := h2 j (by omega) hj
      rw [hex] at this
      exact absurd this (by simp)

/-- Witness of C15 on the table of sizes 120, 80, 300 and three slots. -/
theorem LogHashtable.cursor_walk_sort_witness :
    LogHashtable.cursorWalk UidEntry.getSizes
        (LogHashtable.sort UidEntry.getSizes sampleUidTable 3) 3 4 (-1) = some [0, 1, 2] ∧
    ∃ result k, LogHashtable.sort UidEntry.getSizes sampleUidTable 3 = some result ∧ k ≤ 3 ∧
      (∀ fuel, 3 + 1 ≤ fuel →
        LogHashtable.cursorWalk UidEntry.getSizes (some result) 3 fuel (-1)
          = some ((List.range k).map (fun j => (j : Int)))) :=
  ⟨by decide,
    (LogHashtable.cursor_walk_sort UidEntry.getSizes sampleUidTable 3 (by decide)).imp
      (fun _ h => h.imp (fun _ h2 => ⟨h2.1, h2.2.1, h2.2.2.1⟩))⟩

/-- C16: the array of `sort` after the scan of any number of entries has `n`
slots; its non-empty slots come first; every non-empty slot refers to an
entry of the table scanned already; no table entry occupies two slots; and
the number of non-empty slots is the smaller of `n` and the number of entries
scanned so far. -/
theorem LogHashtable.sort_array_invariant {E : Type} (getSizes : E → Nat)
    (scanned rest : List E) (n : Nat) (retval : List (Option (LogHashtable.EntryPtr E)))
    (hn : 1 ≤ n)
    (hret : retval = LogHashtable.sortLoop getSizes n (LogHashtable.scanPtrs 0 scanned)
      (List.replicate n none)) :
    LogHashtable.sort getSizes (scanned ++ rest) n
      = some (LogHashtable.sortLoop getSizes n (LogHashtable.scanPtrs scanned.length rest)
          retval) ∧
    retval.length = n ∧
    (∀ i j, i < j → j < n → LogHashtable.slotAt retval i = none →
      LogHashtable.slotAt retval j = none) ∧
    (∀ q, some q ∈ retval →
      q.pos < scanned.length ∧ (scanned ++ rest).get? q.pos = some q.entry) ∧
    (∀ i j q q2, retval.get? i = some (some q) → retval.get? j = some (some q2) →
      q.pos = q2.pos → i = j) ∧
    retval.reduceOption.length = min n scanned.length := by
  have hpad := LogHashtable.sortLoop_scanned getSizes n hn scanned
  have hperm := LogHashtable.perm_rankAll getSizes (LogHashtable.scanPtrs 0 scanned) []
  simp only [List.nil_append] at hperm
  have hrank := LogHashtable.rankedSlots_padSlots getSizes n _
    (LogHashtable.rankedPtrs_rankAll getSizes (LogHashtable.scanPtrs 0 scanned) []
      (by simp [LogHashtable.RankedPtrs]))
  have hne := LogHashtable.pairwise_pos_ne_scanned getSizes scanned
  rw [← hpad, ← hret] at hrank
  have hlen : retval.length = n := by
    rw [hret, hpad]
    exact LogHashtable.length_padSlots _ _
  refine ⟨?_, hlen, ?_, ?_, ?_, ?_⟩
  · rw [hret]
    exact LogHashtable.sort_split getSizes scanned rest n hn
  · intro i j hij hjn hi
    unfold LogHashtable.RankedSlots at hrank
    rw [List.pairwise_iff_getElem] at hrank
    have hr := hrank i j (by omega) (by omega) hij
    rw [LogHashtable.slotAt_eq_getElem, List.getElem?_eq_getElem (by omega)] at hi ⊢
    simp only [Option.getD_some] at hi ⊢
    rw [hi] at hr
    cases hq : retval[j] with
    | none => rfl
    | some q =>
      rw [hq] at hr
      simp [LogHashtable.slotRank] at hr
  · intro q hq
    rw [hret, hpad] at hq
    rcases LogHashtable.mem_padSlots n _ _ hq with h | ⟨q2, hq2, h⟩
    · exact absurd h (by simp)
    · simp only [Option.some.injEq] at h
      subst h
      have h1 := (LogHashtable.mem_scanPtrs 0 scanned q).mp (hperm.subset hq2)
      have h2 : scanned[q.pos]? = some q.entry := by simpa using h1.2
      have h3 : q.pos < scanned.length := by
        rw [List.getElem?_eq_some] at h2
        exact h2.1
      refine ⟨h3, ?_⟩
      rw [List.get?_eq_getElem?, List.getElem?_append_left h3]
      exact h2
  · intro i j q q2 hq hq2 hpos
    rw [hret, hpad, List.get?_eq_getElem?] at hq hq2
    have h1 := (LogHashtable.padSlots_getElem_some n _ i q hq).1
    have h2 := (LogHashtable.padSlots_getElem_some n _ j q2 hq2).1
    rw [List.getElem?_eq_some] at h1 h2
    obtain ⟨hi, hie⟩ := h1
    obtain ⟨hj, hje⟩ := h2
    rw [List.pairwise_iff_getElem] at hne
    by_contra hij
    rcases Nat.lt_or_ge i j with hlt | hge
    · have := hne i j hi hj hlt
      rw [hie, hje] at this
      exact this hpos
    · have := hne j i hj hi (by omega)
      rw [hie, hje] at this
      exact this hpos.symm
  · rw [hret, hpad, LogHashtable.reduceOption_padSlots, List.length_take, hperm.length_eq,
      LogHashtable.length_scanPtrs]

/-- Witness of C16: the array after the scan of the entries of sizes 5 and 3
of the table of sizes 5, 3, 4, three slots. -/
theorem LogHashtable.sort_array_invariant_witness :
    midSlots = LogHashtable.sortLoop UidEntry.getSizes 3 (LogHashtable.scanPtrs 0 midScanned)
      (List.replicate 3 none) ∧
    LogHashtable.sort UidEntry.getSizes (midScanned ++ [midLast]) 3
      = some (LogHashtable.sortLoop UidEntry.getSizes 3
          (LogHashtable.scanPtrs midScanned.length [midLast]) midSlots) ∧
    midSlots.length = 3 ∧
    midSlots.reduceOption.length = min 3 midScanned.length :=
  ⟨by decide,
    (LogHashtable.sort_array_invariant UidEntry.getSizes midScanned [midLast] 3 midSlots
      (by decide) (by decide)).1,
    (LogHashtable.sort_array_invariant UidEntry.getSizes midScanned [midLast] 3 midSlots
      (by decide) (by decide)).2.1,
    (LogHashtable.sort_array_invariant UidEntry.getSizes midScanned [midLast] 3 midSlots
      (by decide) (by decide)).2.2.2.2.2⟩

/-- C17: in the scan loop body of `sort` with `n ≥ 1` slots, every read
`retval[i]` of the inner loop has `0 ≤ i ≤ n - 1`, the loop makes at most `n`
reads, the position `i` after `++i` has `0 ≤ i ≤ n`, and when `i < n` the
array keeps its `n` slots: slots below `i` stay, slot `i` takes the entry and
slots `i .. n - 2` move to `i + 1 .. n - 1`. -/
theorem LogHashtable.sort_index_safety {E : Type} (getSizes : E → Nat) (scanned : List E)
    (e : E) (n : Nat) (retval : List (Option (LogHashtable.EntryPtr E))) (hn : 1 ≤ n)
    (hret : retval = LogHashtable.sortLoop getSizes n (LogHashtable.scanPtrs 0 scanned)
      (List.replicate n none)) :
    retval.length = n ∧
    (∀ i ∈ (LogHashtable.searchReads getSizes retval (getSizes e) (n - 1)).1,
      0 ≤ i ∧ i ≤ (n : Int) - 1) ∧
    (LogHashtable.searchReads getSizes retval (getSizes e) (n - 1)).1.length ≤ n ∧
    (LogHashtable.searchReads getSizes retval (getSizes e) (n - 1)).2
      = LogHashtable.searchLoop getSizes retval (getSizes e) (n - 1) ∧
    0 ≤ LogHashtable.storeIndex getSizes n retval (getSizes e) ∧
    LogHashtable.storeIndex getSizes n retval (getSizes e) ≤ (n : Int) ∧
    (∀ i : Nat, LogHashtable.storeIndex getSizes n retval (getSizes e) = (i : Int) → i < n →
      (LogHashtable.sortStep getSizes n retval ⟨scanned.length, e⟩).length = n ∧
      (∀ j, j < i →
        LogHashtable.slotAt (LogHashtable.sortStep getSizes n retval ⟨scanned.length, e⟩) j
          = LogHashtable.slotAt retval j) ∧
      LogHashtable.slotAt (LogHashtable.sortStep getSizes n retval ⟨scanned.length, e⟩) i
        = some ⟨scanned.length, e⟩ ∧
      (∀ j, i ≤ j → j + 1 < n →
        LogHashtable.slotAt (LogHashtable.sortStep getSizes n retval ⟨scanned.length, e⟩)
          (j + 1) = LogHashtable.slotAt retval j)) := by
  have hlen : retval.length = n := by
    rw [hret, LogHashtable.sortLoop_scanned getSizes n hn scanned]
    exact LogHashtable.length_padSlots _ _
  obtain ⟨h1, h2, h3, h4, h5⟩ :=
    LogHashtable.searchReads_bounds getSizes retval (getSizes e) (n - 1)
  refine ⟨hlen, ?_, by omega, h3, ?_, ?_, ?_⟩
  · intro i hi
    have := h1 i hi
    omega
  · unfold LogHashtable.storeIndex
    omega
  · unfold LogHashtable.storeIndex
    omega
  · intro i hidx hi
    have hstep : LogHashtable.sortStep getSizes n retval ⟨scanned.length, e⟩
        = LogHashtable.shiftStore n retval i ⟨scanned.length, e⟩ := by
      have h0 : LogHashtable.sortStep getSizes n retval ⟨scanned.length, e⟩
          = if LogHashtable.storeIndex getSizes n retval (getSizes e) < (n : Int) then
              LogHashtable.shiftStore n retval
                (LogHashtable.storeIndex getSizes n retval (getSizes e)).toNat
                ⟨scanned.length, e⟩
            else retval := rfl
      rw [h0, hidx, if_pos (by omega)]
      simp
    rw [hstep]
    exact LogHashtable.shiftStore_slots n retval i ⟨scanned.length, e⟩ hlen hi

/-- Witness of C17: the entry of size 4 after the entries of sizes 5 and 3,
three slots; the inner loop reads slots 2, 1 and 0 and is left with `i` at 0. -/
theorem LogHashtable.sort_index_safety_witness :
    midSlots = LogHashtable.sortLoop UidEntry.getSizes 3 (LogHashtable.scanPtrs 0 midScanned)
      (List.replicate 3 none) ∧
    LogHashtable.searchReads UidEntry.getSizes midSlots (UidEntry.getSizes midLast) (3 - 1)
      = ([2, 1, 0], 0) ∧
    midSlots.length = 3 ∧
    0 ≤ LogHashtable.storeIndex UidEntry.getSizes 3 midSlots (UidEntry.getSizes midLast) ∧
    LogHashtable.storeIndex UidEntry.getSizes 3 midSlots (UidEntry.getSizes midLast)
      ≤ ((3 : Nat) : Int) :=
  ⟨by decide, by decide,
    (LogHashtable.sort_index_safety UidEntry.getSizes midScanned midLast 3 midSlots
      (by decide) (by decide)).1,
    (LogHashtable.sort_index_safety UidEntry.getSizes midScanned midLast 3 midSlots
      (by decide) (by decide)).2.2.2.2.1,
    (LogHashtable.sort_index_safety UidEntry.getSizes midScanned midLast 3 midSlots
      (by decide) (by decide)).2.2.2.2.2.1⟩

/-- C18: on an entry whose fields are below `2 ^ w`, `add(s)` followed by
`subtract(s)` gives the entry back (size restored, dropped count untouched),
also when the sum wraps around; `add_dropped(d)` followed by
`subtract_dropped(d)` gives the entry back as well; and the closing call
returns true exactly when size and dropped count were both zero before. -/
theorem entry_add_subtract_round_trip (w : Nat) (u : UidEntry) (p : PidEntry) (s : Nat)
    (hus : u.size < 2 ^ w) (hud : u.dropped < 2 ^ w) (hps : p.size < 2 ^ w)
    (hpd : p.dropped < 2 ^ w) :
    (((u.add w s).subtract w s).2 = u ∧
      (((u.add w s).subtract w s).1 = true ↔ u.getSizes = 0 ∧ u.getDropped = 0)) ∧
    (((u.add_dropped w s).subtract_dropped w s).2 = u ∧
      (((u.add_dropped w s).subtract_dropped w s).1 = true ↔
        u.getSizes = 0 ∧ u.getDropped = 0)) ∧
    (((p.add w s).subtract w s).2 = p ∧
      (((p.add w s).subtract w s).1 = true ↔ p.getSizes = 0 ∧ p.getDropped = 0)) ∧
    (((p.add_dropped w s).subtract_dropped w s).2 = p ∧
      (((p.add_dropped w s).subtract_dropped w s).1 = true ↔
        p.getSizes = 0 ∧ p.getDropped = 0)) := by
  have e1 := wrapSub_wrapAdd w u.size s hus
  have e2 := wrapSub_wrapAdd w u.dropped s hud
  have e3 := wrapSub_wrapAdd w p.size s hps
  have e4 := wrapSub_wrapAdd w p.dropped s hpd
  simp only [UidEntry.add, UidEntry.subtract, UidEntry.add_dropped, UidEntry.subtract_dropped,
    PidEntry.add, PidEntry.subtract, PidEntry.add_dropped, PidEntry.subtract_dropped,
    UidEntry.getSizes, UidEntry.getDropped, PidEntry.getSizes, PidEntry.getDropped,
    e1, e2, e3, e4, Bool.and_eq_true, beq_iff_eq]
  exact ⟨⟨trivial, and_comm⟩, ⟨trivial, and_comm⟩, ⟨trivial, and_comm⟩, ⟨trivial, and_comm⟩⟩

/-- Witness of C18: a delta of `2 ^ 32 - 1` on entries of size 5, which wraps
a `size_t` of 32 bits. -/
theorem entry_add_subtract_round_trip_witness :
    UidEntry.add 32 ⟨1000, 5, 0⟩ (2 ^ 32 - 1) = ⟨1000, 4, 0⟩ ∧
    ((UidEntry.add 32 ⟨1000, 5, 0⟩ (2 ^ 32 - 1)).subtract 32 (2 ^ 32 - 1)).2
      = ⟨1000, 5, 0⟩ :=
  ⟨by decide,
    (entry_add_subtract_round_trip 32 ⟨1000, 5, 0⟩ ⟨50, 1000, none, 5, 0⟩ (2 ^ 32 - 1)
      (by decide) (by decide) (by decide) (by decide)).1.1⟩

/-- C19: the cursor started before the first slot returns 0 exactly when
`n > 0`, slot 0 is set and the size in slot 0 is positive; on a non-empty
table whose entries all have size 0, `sort(n)` with `n > 0` fills
`min n (table size)` slots and the cursor returns -1 at once. -/
theorem LogHashtable.next_first_iff {E : Type} (getSizes : E → Nat)
    (sorted : Option (List (Option (LogHashtable.EntryPtr E)))) (table : List E) (n : Nat) :
    (LogHashtable.next getSizes (-1) sorted n = some 0 ↔
      0 < n ∧ ∃ arr p0, sorted = some arr ∧ arr.get? 0 = some (some p0) ∧
        0 < getSizes p0.entry) ∧
    (table ≠ [] → (∀ e ∈ table, getSizes e = 0) → 0 < n →
      ∃ result, LogHashtable.sort getSizes table n = some result ∧
        result.reduceOption.length = min n table.length ∧
        0 < result.reduceOption.length ∧
        LogHashtable.next getSizes (-1) (some result) n = some (-1)) := by
  constructor
  · cases sorted with
    | none => simp [LogHashtable.next]
    | some arr =>
      by_cases hn : n = 0
      · simp [LogHashtable.next, hn]
      · have h2 : ¬ ((n : Int) ≤ 0) := by omega
        cases arr with
        | nil => simp [LogHashtable.next, h2]
        | cons a0 rest =>
          cases a0 with
          | none => simp [LogHashtable.next, h2]
          | some p0 =>
            have hdiv : getSizes p0.entry ≤ getSizes p0.entry / 100 ↔ getSizes p0.entry = 0 := by
              omega
            by_cases h0 : getSizes p0.entry = 0
            · have h3 := hdiv.mpr h0
              simp [LogHashtable.next, h2, h3, h0]
            · have h3 : ¬ getSizes p0.entry ≤ getSizes p0.entry / 100 := fun h => h0 (hdiv.mp h)
              simp [LogHashtable.next, h2, h3]
              omega
  · intro hne hzero hn
    have hsort := LogHashtable.sort_eq_padSlots getSizes table n (by omega)
    have hperm := LogHashtable.perm_rankAll getSizes (LogHashtable.scanPtrs 0 table) []
    simp only [List.nil_append] at hperm
    have hin := LogHashtable.cursorInput_sort getSizes table n
    rw [hsort] at hin
    have hlen : (LogHashtable.rankAll getSizes (LogHashtable.scanPtrs 0 table) []).length
        = table.length := by
      rw [hperm.length_eq, LogHashtable.length_scanPtrs]
    have htl : 0 < table.length := List.length_pos.mpr hne
    refine ⟨_, hsort, ?_, ?_, ?_⟩
    · rw [LogHashtable.reduceOption_padSlots, List.length_take, hlen]
    · rw [LogHashtable.reduceOption_padSlots, List.length_take, hlen]
      omega
    · have hnext := LogHashtable.next_of_lt getSizes _ n 0 hin hn
      have hex : LogHashtable.exposedAt getSizes
          (LogHashtable.padSlots n (LogHashtable.rankAll getSizes
            (LogHashtable.scanPtrs 0 table) [])) 0 = false := by
        by_contra hc
        have hc2 : LogHashtable.exposedAt getSizes
            (LogHashtable.padSlots n (LogHashtable.rankAll getSizes
              (LogHashtable.scanPtrs 0 table) [])) 0 = true := by simpa using hc
        rw [LogHashtable.exposedAt_iff] at hc2
        obtain ⟨p, p0, hp, _, hsz⟩ := hc2
        rw [List.get?_eq_getElem?] at hp
        have hmem := List.getElem?_mem hp
        rcases LogHashtable.mem_padSlots n _ _ hmem with h | ⟨q, hq, h⟩
        · exact absurd h (by simp)
        · simp only [Option.some.injEq] at h
          subst h
          have h1 := (LogHashtable.mem_scanPtrs 0 table p).mp (hperm.subset hq)
          have h2 : table[p.pos]? = some p.entry := by simpa using h1.2
          have h3 := hzero p.entry (List.getElem?_mem h2)
          omega
      rw [hex] at hnext
      simpa using hnext

/-- Witness of C19: two user entries that hold only a dropped count fill both
slots of `sort(2)`, and the cursor started before the first slot returns -1. -/
theorem LogHashtable.next_first_iff_witness :
    LogHashtable.sort UidEntry.getSizes droppedOnlyUidTable 2
      = some [some ⟨0, ⟨1000, 0, 3⟩⟩, some ⟨1, ⟨1001, 0, 1⟩⟩] ∧
    ∃ result, LogHashtable.sort UidEntry.getSizes droppedOnlyUidTable 2 = some result ∧
      result.reduceOption.length = min 2 droppedOnlyUidTable.length ∧
      0 < result.reduceOption.length ∧
      LogHashtable.next UidEntry.getSizes (-1) (some result) 2 = some (-1) :=
  ⟨by decide,
    (LogHashtable.next_first_iff UidEntry.getSizes none droppedOnlyUidTable 2).2 (by decide)
      (by decide) (by decide)⟩
